import Mathlib

/-!
Verification of the recsys repository's core algorithms against its
specification.  Each section shallowly embeds one Python source file's
functions as executable Lean definitions and proves (or refutes) the
spec's claims about them.
-/

namespace RecSys

/-! ## Reference graph: repair and breadth-first closure
Embeds `book-data-processing-scripts/extract-rows.py`
(`extract_with_complete_similar_network`).  A book is modelled as its
`book_id` together with its already-parsed `similar_books` list (the
three-stage tolerant string parse that produces that list is the
external ingestion boundary).  `books` plays the role of the
`books_by_id` dictionary: an association list from id to similar-ids. -/

/-- `s_id in books_by_id`: the id occurs as a key of the catalog. -/
def isKey (books : List (String × List String)) (i : String) : Bool :=
  books.any (fun b => b.1 == i)

/-- The repaired `similar_book_network`: for each book, keep only the
similar-ids that exist as keys (`valid_similar_books = [s_id for s_id in
similar_books if s_id in books_by_id]`). -/
def repairedNetwork (books : List (String × List String)) :
    List (String × List String) :=
  books.map (fun b => (b.1, b.2.filter (fun s => isKey books s)))

/-- `invalid_references_removed`: total of `original_count - len(valid)`
over all books. -/
def invalidRemoved (books : List (String × List String)) : Nat :=
  (books.map
    (fun b => b.2.length - (b.2.filter (fun s => isKey books s)).length)).sum

/-- `network.get(current_book_id, [])` on the association-list network. -/
def adjGet (net : List (String × List String)) (i : String) : List String :=
  match net.find? (fun b => b.1 == i) with
  | some b => b.2
  | none => []

lemma length_filter_add_length_filter_not (p : String → Bool) (l : List String) :
    (l.filter p).length + (l.filter (fun a => ¬ p a)).length = l.length := by
  induction l with
  | nil => rfl
  | cons a l ih =>
    by_cases h : p a <;> simp [List.filter_cons, h, ← ih] <;> omega

/-- C2: after repair every remaining edge target is a key of the catalog
(no dangling edges); the removed count equals the number of edges whose
target is not a known identifier; and each book's edge list is exactly
its original list restricted to known identifiers. -/
theorem repair_removes_exactly_dangling (books : List (String × List String)) :
    (∀ p ∈ repairedNetwork books, ∀ t ∈ p.2, isKey books t = true) ∧
    invalidRemoved books =
      (books.map
        (fun b => (b.2.filter (fun s => ¬ isKey books s)).length)).sum ∧
    ∀ b ∈ books,
      (b.1, b.2.filter (fun s => isKey books s)) ∈ repairedNetwork books := by
  refine ⟨?_, ?_, ?_⟩
  · intro p hp t ht
    rcases List.mem_map.mp hp with ⟨b, _, rfl⟩
    exact List.of_mem_filter ht
  · unfold invalidRemoved
    congr 1
    apply List.map_congr_left
    intro b _
    have h := length_filter_add_length_filter_not (fun s => isKey books s) b.2
    simp only [decide_not] at h ⊢
    omega
  · intro b hb
    exact List.mem_map.mpr ⟨b, hb, rfl⟩

/-- Total number of edges of the network, used as a termination bound. -/
def totalE (net : List (String × List String)) : Nat :=
  (net.map (fun b => b.2.length)).sum

/-- Number of (occurrences of) keys of the network not yet visited. -/
def unvisCount (net : List (String × List String)) (vis : List String) : Nat :=
  ((net.map (fun b => b.1)).filter (fun k => !(vis.contains k))).length

lemma adjGet_length_le_totalE (net : List (String × List String)) (q : String) :
    (adjGet net q).length ≤ totalE net := by
  unfold adjGet totalE
  cases hf : net.find? (fun b => b.1 == q) with
  | none => simp
  | some b =>
    have hb : b ∈ net := List.mem_of_find?_eq_some hf
    exact List.le_sum_of_mem (List.mem_map.mpr ⟨b, hb, rfl⟩)

lemma length_filter_mono {α : Type} (p q : α → Bool) (l : List α)
    (h : ∀ a, p a = true → q a = true) :
    (l.filter p).length ≤ (l.filter q).length := by
  induction l with
  | nil => simp
  | cons a l ih =>
    by_cases hp : p a
    · simp [List.filter_cons, hp, h a hp]
      omega
    · simp only [List.filter_cons, hp, Bool.false_eq_true, if_false]
      by_cases hq : q a <;> simp [hq] <;> omega

lemma unvisCount_cons_le (net : List (String × List String)) (q : String)
    (vis : List String) : unvisCount net (q :: vis) ≤ unvisCount net vis := by
  unfold unvisCount
  apply length_filter_mono
  intro k hk
  simp only [List.contains_cons, Bool.not_eq_true', Bool.or_eq_false_iff] at hk ⊢
  exact hk.2

lemma filter_ncontains_cons_lt (ks : List String) (q : String)
    (vis : List String) (hq : q ∈ ks) (hv : q ∉ vis) :
    (ks.filter (fun k => !((q :: vis).contains k))).length <
      (ks.filter (fun k => !(vis.contains k))).length := by
  induction ks with
  | nil => simp at hq
  | cons k ks ih =>
    by_cases hkq : k = q
    · subst hkq
      have h1 : (!((k :: vis).contains k)) = false := by
        simp [List.contains_cons]
      have h2 : (!(vis.contains k)) = true := by
        simpa using hv
      simp only [List.filter_cons, h1, h2, if_false, if_true, List.length_cons,
        Bool.false_eq_true]
      have := length_filter_mono (fun x => !((k :: vis).contains x))
        (fun x => !(vis.contains x)) ks
        (by
          intro a ha
          simp only [List.contains_cons, Bool.not_eq_true', Bool.or_eq_false_iff] at ha ⊢
          exact ha.2)
      omega
    · have hq' : q ∈ ks := by
        rcases List.mem_cons.mp hq with h | h
        · exact absurd h.symm hkq
        · exact h
      have hpred : ((q :: vis).contains k) = (vis.contains k) := by
        simp only [List.contains_cons]
        have hne : (k == q) = false := by simpa using hkq
        simp [hne]
      simp only [List.filter_cons, hpred]
      by_cases hk : vis.contains k
      · have hk' : (!(vis.contains k)) = false := by simpa using hk
        simp only [hk', Bool.false_eq_true, if_false]
        exact ih hq'
      · have hk' : (!(vis.contains k)) = true := by simpa using hk
        simp only [hk', if_true, List.length_cons]
        have := ih hq'
        omega

lemma unvisCount_cons_lt (net : List (String × List String)) (q : String)
    (vis : List String) (hq : q ∈ net.map (fun b => b.1)) (hv : q ∉ vis) :
    unvisCount net (q :: vis) < unvisCount net vis := by
  unfold unvisCount
  exact filter_ncontains_cons_lt (net.map (fun b => b.1)) q vis hq hv

lemma adjGet_ne_nil_key (net : List (String × List String)) (q : String)
    (h : adjGet net q ≠ []) : q ∈ net.map (fun b => b.1) := by
  unfold adjGet at h
  cases hf : net.find? (fun b => b.1 == q) with
  | none => simp [hf] at h
  | some b =>
    have hb : b ∈ net := List.mem_of_find?_eq_some hf
    have hbq : b.1 = q := by
      have := List.find?_some hf
      simpa using this
    exact List.mem_map.mpr ⟨b, hb, hbq⟩

/-- The worklist loop of `extract_with_complete_similar_network`: pop
`current_book_id` from `books_to_process`; skip it if it is already in
`books_to_include`; otherwise add it and enqueue every neighbour not yet
included.  `vis` is `books_to_include` and the result is its final value. -/
def bfs (net : List (String × List String)) :
    List String → List String → List String
  | [], vis => vis
  | q :: qs, vis =>
    if q ∈ vis then bfs net qs vis
    else bfs net (qs ++ (adjGet net q).filter (fun t => !((q :: vis).contains t)))
      (q :: vis)
termination_by queue vis => unvisCount net vis * (totalE net + 1) + queue.length
decreasing_by
  · simp only [List.length_cons]
    omega
  · simp only [List.length_append, List.length_cons]
    by_cases hnil : adjGet net q = []
    · have heq : unvisCount net (q :: vis) ≤ unvisCount net vis :=
        unvisCount_cons_le net q vis
      simp [hnil]
      calc unvisCount net (q :: vis) * (totalE net + 1) + qs.length
          ≤ unvisCount net vis * (totalE net + 1) + qs.length :=
            Nat.add_le_add_right (Nat.mul_le_mul_right _ heq) _
        _ < unvisCount net vis * (totalE net + 1) + (qs.length + 1) := by omega
    · have hlt : unvisCount net (q :: vis) < unvisCount net vis :=
        unvisCount_cons_lt net q vis (adjGet_ne_nil_key net q hnil)
          (by assumption)
      have hflt : ((adjGet net q).filter
          (fun t => !((q :: vis).contains t))).length ≤ totalE net :=
        le_trans (List.length_filter_le _ _) (adjGet_length_le_totalE net q)
      have h1 : unvisCount net (q :: vis) + 1 ≤ unvisCount net vis := hlt
      calc unvisCount net (q :: vis) * (totalE net + 1) +
          (qs.length + ((adjGet net q).filter
            (fun t => !((q :: vis).contains t))).length)
          ≤ unvisCount net (q :: vis) * (totalE net + 1) +
            (qs.length + totalE net) := by omega
        _ < (unvisCount net (q :: vis) + 1) * (totalE net + 1) + qs.length := by
            ring_nf
            omega
        _ ≤ unvisCount net vis * (totalE net + 1) + qs.length :=
            Nat.add_le_add_right (Nat.mul_le_mul_right _ h1) _
        _ < unvisCount net vis * (totalE net + 1) + (qs.length + 1) := by omega

/-- `books_to_include` only grows: the final visited set contains `vis`. -/
lemma bfs_vis_subset (net : List (String × List String)) (queue vis : List String) :
    ∀ x ∈ vis, x ∈ bfs net queue vis := by
  induction queue, vis using bfs.induct net with
  | case1 vis => intro x hx; simpa [bfs] using hx
  | case2 q qs vis hq ih =>
    intro x hx
    simpa [bfs, hq] using ih x hx
  | case3 q qs vis hq ih =>
    intro x hx
    rw [bfs]
    simp only [hq, if_false]
    exact ih x (List.mem_cons_of_mem q hx)

/-- Every queued id ends up in the final visited set. -/
lemma bfs_queue_subset (net : List (String × List String))
    (queue vis : List String) : ∀ x ∈ queue, x ∈ bfs net queue vis := by
  induction queue, vis using bfs.induct net with
  | case1 vis => intro x hx; simp at hx
  | case2 q qs vis hq ih =>
    intro x hx
    rw [bfs]
    simp only [hq, if_true]
    rcases List.mem_cons.mp hx with rfl | hx'
    · exact bfs_vis_subset net qs vis x hq
    · exact ih x hx'
  | case3 q qs vis hq ih =>
    intro x hx
    rw [bfs]
    simp only [hq, if_false]
    rcases List.mem_cons.mp hx with rfl | hx'
    · exact bfs_vis_subset net _ _ x (List.mem_cons_self x vis)
    · exact ih x (List.mem_append_left _ hx')

/-- Main BFS invariant: if every already-visited id has all its
neighbours in `vis ∪ queue`, then every id visited at the end has all
its neighbours visited at the end. -/
lemma bfs_closed (net : List (String × List String)) :
    ∀ (queue vis : List String),
    (∀ v ∈ vis, ∀ t ∈ adjGet net v, t ∈ vis ∨ t ∈ queue) →
    ∀ v ∈ bfs net queue vis, ∀ t ∈ adjGet net v, t ∈ bfs net queue vis := by
  intro queue vis
  induction queue, vis using bfs.induct net with
  | case1 vis =>
    intro hinv v hv t ht
    simp only [bfs] at hv ⊢
    rcases hinv v hv t ht with h | h
    · exact h
    · simp at h
  | case2 q qs vis hq ih =>
    intro hinv v hv t ht
    rw [bfs] at hv ⊢
    simp only [hq, if_true] at hv ⊢
    refine ih ?_ v hv t ht
    intro v' hv' t' ht'
    rcases hinv v' hv' t' ht' with h | h
    · exact Or.inl h
    · rcases List.mem_cons.mp h with rfl | h'
      · exact Or.inl hq
      · exact Or.inr h'
  | case3 q qs vis hq ih =>
    intro hinv v hv t ht
    rw [bfs] at hv ⊢
    simp only [hq, if_false] at hv ⊢
    refine ih ?_ v hv t ht
    intro v' hv' t' ht'
    rcases List.mem_cons.mp hv' with hv1 | hv''
    · subst hv1
      by_cases hmem : t' ∈ v' :: vis
      · exact Or.inl hmem
      · refine Or.inr (List.mem_append_right _ ?_)
        refine List.mem_filter.mpr ⟨ht', ?_⟩
        simpa using hmem
    · rcases hinv v' hv'' t' ht' with h | h
      · exact Or.inl (List.mem_cons_of_mem q h)
      · rcases List.mem_cons.mp h with rfl | h'
        · exact Or.inl (List.mem_cons_self t' vis)
        · exact Or.inr (List.mem_append_left _ h')

/-- `books_to_include`: the closure of the seed list over the repaired
similar-book network, exactly as the traversal loop computes it. -/
def closureFrom (books : List (String × List String))
    (seeds : List String) : List String :=
  bfs (repairedNetwork books) seeds []

/-- C1: the reachable set returned by the breadth-first closure over the
repaired graph is self-consistent: every edge whose source is in the
result has its target in the result. -/
theorem closure_self_consistent (books : List (String × List String))
    (seeds : List String) :
    ∀ v ∈ closureFrom books seeds,
      ∀ t ∈ adjGet (repairedNetwork books) v, t ∈ closureFrom books seeds := by
  unfold closureFrom
  exact bfs_closed (repairedNetwork books) seeds []
    (by intro v hv; simp at hv)

/-- Witness for C1 on a concrete two-book catalog. -/
theorem closure_self_consistent_witness :
    ("a" ∈ closureFrom [("a", ["b"]), ("b", [])] ["a"]) ∧
    ("b" ∈ adjGet (repairedNetwork [("a", ["b"]), ("b", [])]) "a") ∧
    ("b" ∈ closureFrom [("a", ["b"]), ("b", [])] ["a"]) := by
  have h1 : "a" ∈ closureFrom [("a", ["b"]), ("b", [])] ["a"] := by
    simp [closureFrom, repairedNetwork, isKey, bfs, adjGet]
  have h2 : "b" ∈ adjGet (repairedNetwork [("a", ["b"]), ("b", [])]) "a" := by
    simp [repairedNetwork, isKey, adjGet]
  exact ⟨h1, h2,
    closure_self_consistent [("a", ["b"]), ("b", [])] ["a"] "a" h1 "b" h2⟩

/-! ## Stable sorting, as pandas performs it
`DataFrame.sort_values(column, ascending=False)` computes a stable
ascending argsort of the key and then reverses the permutation
(`nargsort`), so ties end up in reverse row order.  A multi-column
descending sort goes through `lexsort_indexer`, which is stable: ties
keep row order.  Both are modelled with a stable insertion sort. -/

/-- Stable insert for an ascending sort: the new element goes before the
first position whose key is not smaller. -/
def insertOrd {α β : Type} [LinearOrder β] (key : α → β) (a : α) :
    List α → List α
  | [] => [a]
  | b :: bs => if key b < key a then b :: insertOrd key a bs else a :: b :: bs

/-- Stable ascending sort by a key. -/
def stableSortAsc {α β : Type} [LinearOrder β] (key : α → β) :
    List α → List α
  | [] => []
  | a :: as => insertOrd key a (stableSortAsc key as)

/-- `sort_values(key, ascending=False)`: stable ascending argsort,
reversed. -/
def pandasSortDesc {α β : Type} [LinearOrder β] (key : α → β)
    (l : List α) : List α :=
  (stableSortAsc key l).reverse

/-- Stable insert for a descending sort: the new element goes before the
first position whose key is not larger. -/
def insertOrdDesc2 {α : Type} (k1 k2 : α → ℚ) (a : α) :
    List α → List α
  | [] => [a]
  | b :: bs =>
    if k1 a < k1 b ∨ (k1 a = k1 b ∧ k2 a < k2 b) then
      b :: insertOrdDesc2 k1 k2 a bs
    else a :: b :: bs

/-- Stable two-key descending sort
(`sort_values([k1, k2], ascending=[False, False])`, which goes through
the stable `lexsort_indexer`). -/
def stableSortDesc2 {α : Type} (k1 k2 : α → ℚ) : List α → List α
  | [] => []
  | a :: as => insertOrdDesc2 k1 k2 a (stableSortDesc2 k1 k2 as)

lemma mem_insertOrd {α β : Type} [LinearOrder β] (key : α → β) (a x : α)
    (l : List α) : x ∈ insertOrd key a l ↔ x = a ∨ x ∈ l := by
  induction l with
  | nil => simp [insertOrd]
  | cons b bs ih =>
    by_cases hb : key b < key a
    · simp only [insertOrd, hb, if_true, List.mem_cons, ih]
      tauto
    · simp only [insertOrd, hb, if_false, List.mem_cons]

lemma mem_stableSortAsc {α β : Type} [LinearOrder β] (key : α → β) (x : α)
    (l : List α) : x ∈ stableSortAsc key l ↔ x ∈ l := by
  induction l with
  | nil => simp [stableSortAsc]
  | cons a as ih =>
    simp [stableSortAsc, mem_insertOrd, ih]

lemma pairwise_insertOrd {α β : Type} [LinearOrder β] (key : α → β) (a : α)
    (l : List α) (h : List.Pairwise (fun x y => key x ≤ key y) l) :
    List.Pairwise (fun x y => key x ≤ key y) (insertOrd key a l) := by
  induction l with
  | nil => simp [insertOrd]
  | cons b bs ih =>
    by_cases hb : key b < key a
    · simp only [insertOrd, hb, if_true]
      refine List.Pairwise.cons ?_ (ih (List.Pairwise.of_cons h))
      intro x hx
      rcases (mem_insertOrd key a x bs).mp hx with rfl | hx'
      · exact le_of_lt hb
      · exact (List.pairwise_cons.mp h).1 x hx'
    · simp only [insertOrd, hb, if_false]
      refine List.Pairwise.cons ?_ h
      intro x hx
      rcases List.mem_cons.mp hx with rfl | hx'
      · exact le_of_not_lt hb
      · exact le_trans (le_of_not_lt hb) ((List.pairwise_cons.mp h).1 x hx')

lemma pairwise_stableSortAsc {α β : Type} [LinearOrder β] (key : α → β)
    (l : List α) :
    List.Pairwise (fun x y => key x ≤ key y) (stableSortAsc key l) := by
  induction l with
  | nil => simp [stableSortAsc]
  | cons a as ih => exact pairwise_insertOrd key a _ ih

lemma pairwise_pandasSortDesc {α β : Type} [LinearOrder β] (key : α → β)
    (l : List α) :
    List.Pairwise (fun x y => key y ≤ key x) (pandasSortDesc key l) := by
  unfold pandasSortDesc
  rw [List.pairwise_reverse]
  exact pairwise_stableSortAsc key l

lemma mem_pandasSortDesc {α β : Type} [LinearOrder β] (key : α → β) (x : α)
    (l : List α) : x ∈ pandasSortDesc key l ↔ x ∈ l := by
  unfold pandasSortDesc
  rw [List.mem_reverse]
  exact mem_stableSortAsc key x l

/-! ## Serving-time recommender
Embeds `recommendation_system.py` (`DescriptionOnlyRecommender`).  A
loaded catalog row carries the fields the recommender reads; the parsed
`similar_books_list` and `genre_list` stand for the tolerant parses of
the raw columns, and the TF-IDF description-cosine is the external
embedding capability, passed in as `vecSim`.  The snapshot's genre
columns (built at load time from the most common genres) are passed in
as `genreCols`. -/

structure Book where
  book_id : String
  title : String
  authors : String
  ratings_count : Int
  description : String
  genres : List String
  similar : List String
deriving DecidableEq, Repr

/-- `str.lower()` on the ASCII range, applied characterwise. -/
def lowerChars (s : String) : List Char :=
  s.toList.map Char.toLower

/-- Python truthiness of an optional-string argument (`if book_id:`). -/
def pyTruthy : Option String → Bool
  | none => false
  | some s => s ≠ ""

/-- Python `\s` on the ASCII range. -/
def pyIsSpace (c : Char) : Bool :=
  c = ' ' || c = '\t' || c = '\n' || c = '\x0d' || c = '\x0b' || c = '\x0c'

/-- One attempted match of `"author_id":\s*"([^"]+)"` at the head of the
input; on success returns the captured id and the input remaining after
the closing quote. -/
def matchAuthorAt (cs : List Char) : Option (String × List Char) :=
  let lit := ('"' :: "author_id".toList) ++ ['"', ':']
  if cs.take 12 = lit then
    match (cs.drop 12).dropWhile pyIsSpace with
    | '"' :: more =>
      let cap := more.takeWhile (fun c => c ≠ '"')
      match more.dropWhile (fun c => c ≠ '"') with
      | '"' :: tail => if cap.isEmpty then none else some (String.mk cap, tail)
      | _ => none
    | _ => none
  else none

/-- `re.findall(r'"author_id":\s*"([^"]+)"', s)`: scan left to right,
resuming after each match.  The fuel equals the input length; every step
consumes at least one character, so it never runs out. -/
def scanAuthorIdsAux : Nat → List Char → List String
  | 0, _ => []
  | _, [] => []
  | fuel + 1, c :: rest =>
    match matchAuthorAt (c :: rest) with
    | some p => p.1 :: scanAuthorIdsAux fuel p.2
    | none => scanAuthorIdsAux fuel rest

/-- Author-id extraction from the JSON-like `authors` field. -/
def scanAuthorIds (s : String) : List String :=
  scanAuthorIdsAux s.toList.length s.toList

/-- Python substring test `needle in hay`. -/
def isSubstring (needle hay : List Char) : Bool :=
  (List.range (hay.length + 1)).any (fun i => needle.isPrefixOf (hay.drop i))

/-- `load_data`: the SQL query restricts the serving catalog to rows
with `ratings_count > 20`. -/
def load_data (raw : List Book) : List Book :=
  raw.filter (fun r => 20 < r.ratings_count)

/-! ### Python regular expressions
The title branch of `find_book` uses pandas `str.contains`, whose
default `regex=True` hands `title.lower()` to `re.compile` and
`re.search` — an invalid pattern raises `re.error` out of the lookup.
`reParse` and `reSearch` embed the `re` fragment reachable from plain
pattern strings: literals, `.`, escapes (hex, octal, control
characters, the `d D w s S W b B A Z` classes and assertions on the
ASCII range), character classes with ranges and negation, groups and
non-capturing groups, alternation, anchors, and greedy, lazy and
possessive quantifiers including braced repetition counts.  Compile
errors (dangling quantifier, multiple repeat, unbalanced parenthesis
or bracket, unterminated class, bad escape, bad character range, min
repeat greater than max) mirror CPython 3.11, validated case by case
against it.  Extension groups other than the non-capturing one and
numbered group references are modeled as compile errors; possessive
repetition keeps only the endpoints from which the body cannot
advance (atomic matching, no backtracking). -/

inductive ClsItem where
  | rng (lo hi : Char)
  | nrng (rs : List (Char × Char))
deriving DecidableEq, Repr

inductive RegEx where
  | eps
  | lit (c : Char)
  | anyc
  | cls (neg : Bool) (items : List ClsItem)
  | bos
  | eos
  | eoz
  | wordB
  | nonWordB
  | cat (a b : RegEx)
  | alt (a b : RegEx)
  | star (a : RegEx)
  | rep (lo : Nat) (hi : Option Nat) (a : RegEx)
  | pstar (a : RegEx)
  | prep (lo : Nat) (hi : Option Nat) (a : RegEx)
deriving DecidableEq, Repr

def wordRangesRe : List (Char × Char) :=
  [('a', 'z'), ('A', 'Z'), ('0', '9'), ('_', '_')]

def digitRangesRe : List (Char × Char) := [('0', '9')]

def spaceRangesRe : List (Char × Char) :=
  [(' ', ' '), ('\t', '\t'), ('\n', '\n'), ('\x0b', '\x0b'),
    ('\x0c', '\x0c'), ('\r', '\r')]

def inRanges (c : Char) (rs : List (Char × Char)) : Bool :=
  rs.any (fun p => p.1.toNat ≤ c.toNat && c.toNat ≤ p.2.toNat)

def clsItemMatch (c : Char) : ClsItem → Bool
  | .rng lo hi => lo.toNat ≤ c.toNat && c.toNat ≤ hi.toNat
  | .nrng rs => !(inRanges c rs)

def clsMatch (c : Char) (neg : Bool) (items : List ClsItem) : Bool :=
  if neg then !(items.any (clsItemMatch c)) else items.any (clsItemMatch c)

def isWordAt (s : List Char) (j : Nat) : Bool :=
  match s.get? j with
  | some c => inRanges c wordRangesRe
  | none => false

def iterClosure (f : Nat → List Nat) : Nat → List Nat → List Nat → List Nat
  | 0, _, seen => seen
  | fu + 1, frontier, seen =>
    let nxt := ((frontier.flatMap f).dedup).filter (fun j => ¬ seen.contains j)
    if nxt.isEmpty then seen else iterClosure f fu nxt (seen ++ nxt)

def iterN (f : Nat → List Nat) : Nat → List Nat → List Nat
  | 0, fr => fr
  | n + 1, fr => iterN f n ((fr.flatMap f).dedup)

def iterUpTo (f : Nat → List Nat) : Nat → List Nat → List Nat
  | 0, fr => fr
  | n + 1, fr =>
    fr ++ (iterUpTo f n ((fr.flatMap f).dedup)).filter
      (fun j => ¬ fr.contains j)

def noProg (f : Nat → List Nat) (j : Nat) : Bool :=
  (f j).all (fun k => k = j)

def iterPoss (f : Nat → List Nat) : Nat → List Nat → List Nat
  | 0, fr => fr
  | n + 1, fr =>
    fr.filter (noProg f) ++
      iterPoss f n (((fr.filter (fun j => !(noProg f j))).flatMap f).dedup)

def mrun (s : List Char) : Nat → RegEx → Nat → List Nat
  | 0, _, _ => []
  | fuel + 1, r, i =>
    match r with
    | .eps => [i]
    | .lit c =>
      match s.get? i with
      | some d => if d = c then [i + 1] else []
      | none => []
    | .anyc =>
      match s.get? i with
      | some d => if d = '\n' then [] else [i + 1]
      | none => []
    | .cls neg items =>
      match s.get? i with
      | some d => if clsMatch d neg items then [i + 1] else []
      | none => []
    | .bos => if i = 0 then [i] else []
    | .eos =>
      if i = s.length ∨ (i + 1 = s.length ∧ s.get? i = some '\n') then [i]
      else []
    | .eoz => if i = s.length then [i] else []
    | .wordB =>
      let left := if i = 0 then false else isWordAt s (i - 1)
      if left ≠ isWordAt s i then [i] else []
    | .nonWordB =>
      let left := if i = 0 then false else isWordAt s (i - 1)
      if left = isWordAt s i then [i] else []
    | .cat a b =>
      ((mrun s fuel a i).flatMap (fun j => mrun s fuel b j)).dedup
    | .alt a b => ((mrun s fuel a i) ++ (mrun s fuel b i)).dedup
    | .star a =>
      iterClosure (fun j => mrun s fuel a j) (s.length + 1) [i] [i]
    | .rep lo hi a =>
      let base := iterN (fun j => mrun s fuel a j) lo [i]
      match hi with
      | none =>
        iterClosure (fun j => mrun s fuel a j) (s.length + 1) base base
      | some h =>
        if h < lo then []
        else (iterUpTo (fun j => mrun s fuel a j) (h - lo) base).dedup
    | .pstar a =>
      (iterClosure (fun j => mrun s fuel a j) (s.length + 1) [i]
        [i]).filter (noProg (fun j => mrun s fuel a j))
    | .prep lo hi a =>
      let base := iterN (fun j => mrun s fuel a j) lo [i]
      match hi with
      | none =>
        ((iterClosure (fun j => mrun s fuel a j) (s.length + 1) base
          base).filter (noProg (fun j => mrun s fuel a j))).dedup
      | some h =>
        if h < lo then []
        else (iterPoss (fun j => mrun s fuel a j) (h - lo) base).dedup

def reDepth : RegEx → Nat
  | .cat a b => 1 + max (reDepth a) (reDepth b)
  | .alt a b => 1 + max (reDepth a) (reDepth b)
  | .star a => 1 + reDepth a
  | .rep _ _ a => 1 + reDepth a
  | .pstar a => 1 + reDepth a
  | .prep _ _ a => 1 + reDepth a
  | _ => 1

def reSearch (r : RegEx) (s : List Char) : Bool :=
  (List.range (s.length + 1)).any
    (fun i => !(mrun s (reDepth r + 1) r i).isEmpty)

def hexDigit (c : Char) : Option Nat :=
  if '0'.toNat ≤ c.toNat ∧ c.toNat ≤ '9'.toNat then some (c.toNat - '0'.toNat)
  else if 'a'.toNat ≤ c.toNat ∧ c.toNat ≤ 'f'.toNat then
    some (c.toNat - 'a'.toNat + 10)
  else if 'A'.toNat ≤ c.toNat ∧ c.toNat ≤ 'F'.toNat then
    some (c.toNat - 'A'.toNat + 10)
  else none

def octDigit (c : Char) : Option Nat :=
  if '0'.toNat ≤ c.toNat ∧ c.toNat ≤ '7'.toNat then some (c.toNat - '0'.toNat)
  else none

def hexChars : Nat → Nat → List Char → Option (Char × List Char)
  | 0, acc, rest => some (Char.ofNat (acc % 1114112), rest)
  | n + 1, acc, cs =>
    match cs with
    | [] => none
    | c :: rest =>
      match hexDigit c with
      | some v => hexChars n (16 * acc + v) rest
      | none => none

def octMore : Nat → Nat → List Char → Char × List Char
  | 0, acc, rest => (Char.ofNat (acc % 1114112), rest)
  | n + 1, acc, cs =>
    match cs with
    | c :: rest =>
      match octDigit c with
      | some v => octMore n (8 * acc + v) rest
      | none => (Char.ofNat (acc % 1114112), cs)
    | [] => (Char.ofNat (acc % 1114112), [])

def ctrlEsc (e : Char) : Option Char :=
  if e = 'n' then some '\n'
  else if e = 't' then some '\t'
  else if e = 'r' then some '\r'
  else if e = 'f' then some '\x0c'
  else if e = 'v' then some '\x0b'
  else if e = 'a' then some '\x07'
  else none

/-- Escapes outside a character class. -/
def parseEsc : List Char → Except Unit (RegEx × List Char)
  | [] => Except.error ()
  | 'x' :: rest =>
    match hexChars 2 0 rest with
    | some (c, rest2) => Except.ok (RegEx.lit c, rest2)
    | none => Except.error ()
  | 'u' :: rest =>
    match hexChars 4 0 rest with
    | some (c, rest2) => Except.ok (RegEx.lit c, rest2)
    | none => Except.error ()
  | 'U' :: rest =>
    match hexChars 8 0 rest with
    | some (c, rest2) => Except.ok (RegEx.lit c, rest2)
    | none => Except.error ()
  | '0' :: rest =>
    let p := octMore 2 0 rest
    Except.ok (RegEx.lit p.1, p.2)
  | e :: rest =>
    if e = 'd' then Except.ok (RegEx.cls false [ClsItem.rng '0' '9'], rest)
    else if e = 'D' then
      Except.ok (RegEx.cls false [ClsItem.nrng digitRangesRe], rest)
    else if e = 'w' then
      Except.ok (RegEx.cls false (wordRangesRe.map
        (fun p => ClsItem.rng p.1 p.2)), rest)
    else if e = 'W' then
      Except.ok (RegEx.cls false [ClsItem.nrng wordRangesRe], rest)
    else if e = 's' then
      Except.ok (RegEx.cls false (spaceRangesRe.map
        (fun p => ClsItem.rng p.1 p.2)), rest)
    else if e = 'S' then
      Except.ok (RegEx.cls false [ClsItem.nrng spaceRangesRe], rest)
    else if e = 'b' then Except.ok (RegEx.wordB, rest)
    else if e = 'B' then Except.ok (RegEx.nonWordB, rest)
    else if e = 'A' then Except.ok (RegEx.bos, rest)
    else if e = 'Z' then Except.ok (RegEx.eoz, rest)
    else match ctrlEsc e with
    | some c => Except.ok (RegEx.lit c, rest)
    | none =>
      if '1'.toNat ≤ e.toNat ∧ e.toNat ≤ '9'.toNat then Except.error ()
      else if e.isAlpha then Except.error ()
      else Except.ok (RegEx.lit e, rest)

inductive ClsTok where
  | ch (c : Char)
  | set (its : List ClsItem)

/-- Escapes inside a character class. -/
def classEsc : List Char → Except Unit (ClsTok × List Char)
  | [] => Except.error ()
  | 'x' :: rest =>
    match hexChars 2 0 rest with
    | some (c, rest2) => Except.ok (ClsTok.ch c, rest2)
    | none => Except.error ()
  | 'u' :: rest =>
    match hexChars 4 0 rest with
    | some (c, rest2) => Except.ok (ClsTok.ch c, rest2)
    | none => Except.error ()
  | 'U' :: rest =>
    match hexChars 8 0 rest with
    | some (c, rest2) => Except.ok (ClsTok.ch c, rest2)
    | none => Except.error ()
  | e :: rest =>
    match octDigit e with
    | some v =>
      let p := octMore 2 v rest
      Except.ok (ClsTok.ch p.1, p.2)
    | none =>
      if e = '8' ∨ e = '9' then Except.error ()
      else if e = 'd' then Except.ok (ClsTok.set [ClsItem.rng '0' '9'], rest)
      else if e = 'D' then
        Except.ok (ClsTok.set [ClsItem.nrng digitRangesRe], rest)
      else if e = 'w' then
        Except.ok (ClsTok.set (wordRangesRe.map
          (fun p => ClsItem.rng p.1 p.2)), rest)
      else if e = 'W' then
        Except.ok (ClsTok.set [ClsItem.nrng wordRangesRe], rest)
      else if e = 's' then
        Except.ok (ClsTok.set (spaceRangesRe.map
          (fun p => ClsItem.rng p.1 p.2)), rest)
      else if e = 'S' then
        Except.ok (ClsTok.set [ClsItem.nrng spaceRangesRe], rest)
      else if e = 'b' then Except.ok (ClsTok.ch '\x08', rest)
      else match ctrlEsc e with
      | some c => Except.ok (ClsTok.ch c, rest)
      | none =>
        if e.isAlpha then Except.error ()
        else Except.ok (ClsTok.ch e, rest)

/-- Items of a `[...]` class; a `]` directly after `[` or `[^` is a
literal member. -/
def classItems : Nat → Bool → List Char → Except Unit (List ClsItem × List Char)
  | 0, _, _ => Except.error ()
  | fuel + 1, first, cs =>
    match cs with
    | [] => Except.error ()
    | c0 :: t0 =>
      if c0 = ']' ∧ ¬ first then Except.ok ([], t0)
      else
        match (if c0 = '\\' then classEsc t0
          else Except.ok (ClsTok.ch c0, t0)) with
        | Except.error e => Except.error e
        | Except.ok (ClsTok.set its, rest) =>
          match rest with
          | '-' :: ']' :: _ =>
            match classItems fuel false rest with
            | Except.error e => Except.error e
            | Except.ok (more, rest2) => Except.ok (its ++ more, rest2)
          | '-' :: _ :: _ => Except.error ()
          | _ =>
            match classItems fuel false rest with
            | Except.error e => Except.error e
            | Except.ok (more, rest2) => Except.ok (its ++ more, rest2)
        | Except.ok (ClsTok.ch c, rest) =>
          match rest with
          | '-' :: ']' :: _ =>
            match classItems fuel false rest with
            | Except.error e => Except.error e
            | Except.ok (more, rest2) =>
              Except.ok (ClsItem.rng c c :: more, rest2)
          | '-' :: '\\' :: t3 =>
            match classEsc t3 with
            | Except.error e => Except.error e
            | Except.ok (ClsTok.set _, _) => Except.error ()
            | Except.ok (ClsTok.ch d, t4) =>
              if d.toNat < c.toNat then Except.error ()
              else
                match classItems fuel false t4 with
                | Except.error e => Except.error e
                | Except.ok (more, rest2) =>
                  Except.ok (ClsItem.rng c d :: more, rest2)
          | '-' :: d :: t3 =>
            if d.toNat < c.toNat then Except.error ()
            else
              match classItems fuel false t3 with
              | Except.error e => Except.error e
              | Except.ok (more, rest2) =>
                Except.ok (ClsItem.rng c d :: more, rest2)
          | _ =>
            match classItems fuel false rest with
            | Except.error e => Except.error e
            | Except.ok (more, rest2) =>
              Except.ok (ClsItem.rng c c :: more, rest2)

def parseDigitsAux : List Char → Nat → Bool → Option Nat × List Char
  | cs, acc, got =>
    match cs with
    | c :: rest =>
      if '0'.toNat ≤ c.toNat ∧ c.toNat ≤ '9'.toNat then
        parseDigitsAux rest (10 * acc + (c.toNat - '0'.toNat)) true
      else (if got then some acc else none, cs)
    | [] => (if got then some acc else none, [])

/-- `{m}`, `{m,}`, `{,n}`, `{m,n}`, `{,}` after the `{`; `none` when
the braces are not a quantifier (then `{` is a literal). -/
def braceQuant (cs : List Char) : Option (Nat × Option Nat × List Char) :=
  let p := parseDigitsAux cs 0 false
  match p.2 with
  | '}' :: rest =>
    match p.1 with
    | some m => some (m, some m, rest)
    | none => none
  | ',' :: rest2 =>
    let q := parseDigitsAux rest2 0 false
    match q.2 with
    | '}' :: rest3 => some (p.1.getD 0, q.1, rest3)
    | _ => none
  | _ => none

def isQuantNext (cs : List Char) : Bool :=
  match cs with
  | '*' :: _ => true
  | '+' :: _ => true
  | '?' :: _ => true
  | '{' :: t => (braceQuant t).isSome
  | _ => false

def possessify : RegEx → RegEx
  | .star a => .pstar a
  | .rep lo hi a => .prep lo hi a
  | r => r

inductive ReMode where
  | alt
  | cat
  | rep
  | atom

abbrev PRes := Except Unit (RegEx × List Char)

def reP : Nat → ReMode → List Char → PRes
  | 0, _, _ => Except.error ()
  | fuel + 1, ReMode.alt, cs =>
    match reP fuel ReMode.cat cs with
    | Except.error e => Except.error e
    | Except.ok (r, rest) =>
      match rest with
      | '|' :: rest2 =>
        match reP fuel ReMode.alt rest2 with
        | Except.error e => Except.error e
        | Except.ok (r2, rest3) => Except.ok (RegEx.alt r r2, rest3)
      | _ => Except.ok (r, rest)
  | fuel + 1, ReMode.cat, cs =>
    match cs with
    | [] => Except.ok (RegEx.eps, [])
    | ')' :: _ => Except.ok (RegEx.eps, cs)
    | '|' :: _ => Except.ok (RegEx.eps, cs)
    | _ =>
      match reP fuel ReMode.rep cs with
      | Except.error e => Except.error e
      | Except.ok (r, rest) =>
        match reP fuel ReMode.cat rest with
        | Except.error e => Except.error e
        | Except.ok (r2, rest2) => Except.ok (RegEx.cat r r2, rest2)
  | fuel + 1, ReMode.rep, cs =>
    match reP fuel ReMode.atom cs with
    | Except.error e => Except.error e
    | Except.ok (r, rest) =>
      let quant : Except Unit (RegEx × List Char × Bool) :=
        match rest with
        | '*' :: t => Except.ok (RegEx.star r, t, true)
        | '+' :: t => Except.ok (RegEx.rep 1 none r, t, true)
        | '?' :: t => Except.ok (RegEx.rep 0 (some 1) r, t, true)
        | '{' :: t =>
          match braceQuant t with
          | some (m, some n, t2) =>
            if n < m then Except.error ()
            else Except.ok (RegEx.rep m (some n) r, t2, true)
          | some (m, none, t2) => Except.ok (RegEx.rep m none r, t2, true)
          | none => Except.ok (r, rest, false)
        | _ => Except.ok (r, rest, false)
      match quant with
      | Except.error e => Except.error e
      | Except.ok (r2, rest2, applied) =>
        if applied then
          let mod : RegEx × List Char :=
            match rest2 with
            | '?' :: t => (r2, t)
            | '+' :: t => (possessify r2, t)
            | _ => (r2, rest2)
          if isQuantNext mod.2 then Except.error ()
          else Except.ok (mod.1, mod.2)
        else Except.ok (r2, rest2)
  | fuel + 1, ReMode.atom, cs =>
    match cs with
    | [] => Except.error ()
    | '(' :: rest =>
      match rest with
      | '?' :: ':' :: rest2 =>
        match reP fuel ReMode.alt rest2 with
        | Except.error e => Except.error e
        | Except.ok (r, rest3) =>
          match rest3 with
          | ')' :: rest4 => Except.ok (r, rest4)
          | _ => Except.error ()
      | '?' :: _ => Except.error ()
      | _ =>
        match reP fuel ReMode.alt rest with
        | Except.error e => Except.error e
        | Except.ok (r, rest2) =>
          match rest2 with
          | ')' :: rest3 => Except.ok (r, rest3)
          | _ => Except.error ()
    | '[' :: rest =>
      let p : Bool × List Char :=
        match rest with
        | '^' :: t => (true, t)
        | _ => (false, rest)
      match classItems (rest.length + 2) true p.2 with
      | Except.error e => Except.error e
      | Except.ok (items, rest2) =>
        Except.ok (RegEx.cls p.1 items, rest2)
    | '.' :: rest => Except.ok (RegEx.anyc, rest)
    | '^' :: rest => Except.ok (RegEx.bos, rest)
    | '$' :: rest => Except.ok (RegEx.eos, rest)
    | '*' :: _ => Except.error ()
    | '+' :: _ => Except.error ()
    | '?' :: _ => Except.error ()
    | ')' :: _ => Except.error ()
    | '{' :: rest =>
      if (braceQuant rest).isSome then Except.error ()
      else Except.ok (RegEx.lit '{', rest)
    | '\\' :: rest => parseEsc rest
    | c :: rest => Except.ok (RegEx.lit c, rest)

def reParse (cs : List Char) : Except Unit RegEx :=
  match reP (8 * cs.length + 8) ReMode.alt cs with
  | Except.error _ => Except.error ()
  | Except.ok (r, []) => Except.ok r
  | Except.ok (_, _) => Except.error ()
deriving instance DecidableEq for Except

/-- `find_book`: lookup by id, else the title branch of pandas
`str.contains` (`regex=True`): the lowered title is compiled as a
regular expression — `re.error` on an invalid pattern propagates to
the caller, modeled as `Except.error` — and `re.search`ed against
each lowered catalog title.  Of the matches, the most popular one
(pandas descending sort by `ratings_count`, which on ties keeps the
last row) is returned. -/
def find_book (df : List Book) (book_id title : Option String) :
    Except Unit (Option Book) :=
  if pyTruthy book_id then
    Except.ok ((pandasSortDesc (fun r => r.ratings_count)
      (df.filter (fun r => r.book_id == book_id.getD ""))).head?)
  else if pyTruthy title then
    match reParse (lowerChars (title.getD "")) with
    | Except.error e => Except.error e
    | Except.ok rx =>
      Except.ok ((pandasSortDesc (fun r => r.ratings_count)
        (df.filter (fun r => reSearch rx (lowerChars r.title)))).head?)
  else Except.ok none

/-- The cheap per-query duplicate check `is_likely_duplicate`. -/
def is_likely_duplicate (book row : Book) : Bool :=
  let rowT := lowerChars row.title
  let srcT := lowerChars book.title
  if srcT == rowT then true
  else
    let srcA := scanAuthorIds book.authors
    let rowA := scanAuthorIds row.authors
    let titleSim := isSubstring srcT rowT || isSubstring rowT srcT
    let authorsMatch := srcA.any (fun a => rowA.contains a)
    titleSim && authorsMatch

/-- Value of the binary genre column for `g` on a row. -/
def genreFlag (r : Book) (g : String) : Bool :=
  r.genres.any (fun x => lowerChars x == lowerChars g)

/-- `calculate_genre_match`: matching genre columns over the source's
genre-column count; 0 when the source has none. -/
def genre_score (genreCols : List String) (book row : Book) : ℚ :=
  let matching := (genreCols.filter
    (fun g => genreFlag book g && genreFlag row g)).length
  let srcGenres := (genreCols.filter (fun g => genreFlag book g)).length
  if 0 < srcGenres then (matching : ℚ) / (srcGenres : ℚ) else 0

def similar_books_weight : ℚ := 1/10

def vector_embedding_weight : ℚ := 7/10

def genre_weight : ℚ := 2/10

/-- One scored candidate row of the recommendation frame. -/
structure Scored where
  row : Book
  similar_books_score : ℚ
  vector_score : ℚ
  genre_score : ℚ
  final_score : ℚ
deriving DecidableEq, Repr

/-- Score a candidate row against the source book.  `vecSim` is the
external description-cosine; it is only consulted when the source has a
non-empty description, exactly as the code skips description similarity
for a source with no description. -/
def scoreRow (genreCols : List String) (vecSim : Book → Book → ℚ)
    (book row : Book) : Scored :=
  let simS : ℚ := if row.book_id ∈ book.similar then 1 else 0
  let vecS : ℚ := if book.description ≠ "" then vecSim book row else 0
  let genS : ℚ := genre_score genreCols book row
  { row := row
    similar_books_score := simS
    vector_score := vecS
    genre_score := genS
    final_score := simS * similar_books_weight +
      vecS * vector_embedding_weight + genS * genre_weight }

/-- `get_recommendations`: find the source (`re.error` from the title
lookup propagates), return the empty frame when it is not found, else
drop it and likely duplicates from the pool, score the rest, sort by
`final_score` descending and truncate to `num_recommendations`. -/
def get_recommendations (genreCols : List String)
    (vecSim : Book → Book → ℚ) (df : List Book)
    (book_id title : Option String) (k : Nat) :
    Except Unit (List Scored) :=
  match (if pyTruthy book_id then find_book df book_id none
    else if pyTruthy title then find_book df none title
    else Except.ok none) with
  | Except.error e => Except.error e
  | Except.ok none => Except.ok []
  | Except.ok (some book) =>
    let filtered := df.filter
      (fun r => r.book_id ≠ book.book_id && !(is_likely_duplicate book r))
    let scored := filtered.map (scoreRow genreCols vecSim book)
    Except.ok ((pandasSortDesc (fun s => s.final_score) scored).take k)

lemma find_book_id_none (df : List Book) (i : String)
    (h : ∀ r ∈ df, r.book_id ≠ i) :
    find_book df (some i) none = Except.ok none := by
  by_cases hi : i = ""
  · subst hi
    simp [find_book, pyTruthy]
  · unfold find_book
    have ht : pyTruthy (some i) = true := by simp [pyTruthy, hi]
    simp only [ht, if_true]
    have hfil : df.filter (fun r => r.book_id == (some i).getD "") = [] := by
      rw [List.filter_eq_nil_iff]
      intro r hr
      simpa using h r hr
    rw [hfil]
    rfl

lemma find_book_title_none (df : List Book) (t : String) (rx : RegEx)
    (hok : reParse (lowerChars t) = Except.ok rx)
    (h : ∀ r ∈ df, reSearch rx (lowerChars r.title) = false) :
    find_book df none (some t) = Except.ok none := by
  by_cases ht0 : t = ""
  · subst ht0
    simp [find_book, pyTruthy]
  · unfold find_book
    have ht : pyTruthy (some t) = true := by simp [pyTruthy, ht0]
    have hp0 : pyTruthy (none : Option String) = false := by
      simp [pyTruthy]
    rw [hp0]
    simp only [Bool.false_eq_true, if_false, ht, if_true,
      Option.getD_some, hok]
    have hfil : df.filter (fun r => reSearch rx (lowerChars r.title)) = [] := by
      rw [List.filter_eq_nil_iff]
      intro r hr
      simpa using h r hr
    rw [hfil]
    rfl

lemma find_book_title_error (df : List Book) (t : String)
    (ht0 : t ≠ "")
    (he : reParse (lowerChars t) = Except.error ()) :
    find_book df none (some t) = Except.error () := by
  unfold find_book
  have ht : pyTruthy (some t) = true := by simp [pyTruthy, ht0]
  have hp0 : pyTruthy (none : Option String) = false := by
    simp [pyTruthy]
  rw [hp0]
  simp only [Bool.false_eq_true, if_false, ht, if_true,
    Option.getD_some, he]

lemma get_recommendations_of_none (genreCols : List String)
    (vecSim : Book → Book → ℚ) (df : List Book)
    (book_id title : Option String) (k : Nat)
    (h : (if pyTruthy book_id then find_book df book_id none
      else if pyTruthy title then find_book df none title
      else Except.ok none) = Except.ok none) :
    get_recommendations genreCols vecSim df book_id title k =
      Except.ok [] := by
  unfold get_recommendations
  rw [h]

lemma get_recommendations_of_error (genreCols : List String)
    (vecSim : Book → Book → ℚ) (df : List Book)
    (book_id title : Option String) (k : Nat)
    (h : (if pyTruthy book_id then find_book df book_id none
      else if pyTruthy title then find_book df none title
      else Except.ok none) = Except.error ()) :
    get_recommendations genreCols vecSim df book_id title k =
      Except.error () := by
  unfold get_recommendations
  rw [h]

/-- Every returned candidate row belongs to the catalog frame. -/
lemma get_recommendations_row_mem (genreCols : List String)
    (vecSim : Book → Book → ℚ) (df : List Book)
    (book_id title : Option String) (k : Nat) :
    ∀ out, get_recommendations genreCols vecSim df book_id title k =
      Except.ok out → ∀ s ∈ out, s.row ∈ df := by
  intro out hout s hs
  unfold get_recommendations at hout
  cases hb : (if pyTruthy book_id then find_book df book_id none
    else if pyTruthy title then find_book df none title
    else Except.ok none) with
  | error e =>
    rw [hb] at hout
    exact absurd hout (by simp)
  | ok ob =>
    rw [hb] at hout
    cases ob with
    | none =>
      injection hout with h2
      rw [← h2] at hs
      simp at hs
    | some book =>
      dsimp only at hout
      injection hout with h2
      rw [← h2] at hs
      have h1 := List.mem_of_mem_take hs
      rw [mem_pandasSortDesc] at h1
      rcases List.mem_map.mp h1 with ⟨r, hr, rfl⟩
      exact List.mem_of_mem_filter hr

/-- C4 claimed ordering: aggregate score descending, ties broken by
popularity descending, then identifier ascending. -/
def claimedOrd (a b : Scored) : Prop :=
  b.final_score < a.final_score ∨
    (a.final_score = b.final_score ∧
      (b.row.ratings_count < a.row.ratings_count ∨
        (a.row.ratings_count = b.row.ratings_count ∧
          a.row.book_id ≤ b.row.book_id)))

instance : DecidableRel claimedOrd := fun a b => by
  unfold claimedOrd
  infer_instance

def c4src : Book :=
  { book_id := "s", title := "source", authors := "", ratings_count := 50,
    description := "", genres := [], similar := ["a2", "a3"] }

def c4hi : Book :=
  { book_id := "a2", title := "alpha", authors := "", ratings_count := 1000,
    description := "", genres := [], similar := [] }

def c4lo : Book :=
  { book_id := "a3", title := "beta", authors := "", ratings_count := 5,
    description := "", genres := [], similar := [] }

/-- Counterexample to C4 as stated: with two candidates tied on
aggregate score, the returned order is not popularity-descending (the
sort key is `final_score` alone, and pandas reverses ties). -/
theorem rank_tiebreak_cex :
    get_recommendations [] (fun _ _ => 0) [c4src, c4hi, c4lo]
        (some "s") none 10 =
      Except.ok [scoreRow [] (fun _ _ => 0) c4src c4lo,
        scoreRow [] (fun _ _ => 0) c4src c4hi] ∧
    ¬ List.Pairwise claimedOrd
      [scoreRow [] (fun _ _ => 0) c4src c4lo,
        scoreRow [] (fun _ _ => 0) c4src c4hi] := by
  constructor
  · norm_num +decide [get_recommendations, find_book, pyTruthy,
      pandasSortDesc, stableSortAsc, insertOrd, c4src, c4hi, c4lo,
      is_likely_duplicate, lowerChars, isSubstring, scanAuthorIds,
      scanAuthorIdsAux, matchAuthorAt, scoreRow, genre_score, genreFlag,
      similar_books_weight, vector_embedding_weight, genre_weight]
  · intro hp
    have hord := (List.pairwise_cons.mp hp).1 _ (List.mem_cons_self _ _)
    unfold claimedOrd at hord
    norm_num +decide [scoreRow, c4src, c4hi, c4lo, genre_score, genreFlag,
      similar_books_weight, vector_embedding_weight, genre_weight] at hord

/-- C4 (amended): whenever the call returns (no `re.error` from the
title path), the returned list is sorted descending by aggregate score
alone (ties keep the implementation's order, not a
popularity/identifier tie-break), is truncated to `k`, and the ranking
is a pure function of the snapshot and inputs, so two identical calls
return the identical output. -/
theorem rank_sorted_truncated_det (genreCols : List String)
    (vecSim : Book → Book → ℚ) (df : List Book)
    (book_id title : Option String) (k : Nat) (out : List Scored)
    (h : get_recommendations genreCols vecSim df book_id title k =
      Except.ok out) :
    List.Pairwise (fun a b => b.final_score ≤ a.final_score) out ∧
    out.length ≤ k ∧
    get_recommendations genreCols vecSim df book_id title k =
      get_recommendations genreCols vecSim df book_id title k := by
  refine ⟨?_, ?_, rfl⟩
  · unfold get_recommendations at h
    cases hb : (if pyTruthy book_id then find_book df book_id none
      else if pyTruthy title then find_book df none title
      else Except.ok none) with
    | error e =>
      rw [hb] at h
      exact absurd h (by simp)
    | ok ob =>
      rw [hb] at h
      cases ob with
      | none =>
        injection h with h2
        rw [← h2]
        simp
      | some book =>
        dsimp only at h
        injection h with h2
        rw [← h2]
        exact List.Pairwise.sublist (List.take_sublist _ _)
          (pairwise_pandasSortDesc (fun x : Scored => x.final_score) _)
  · unfold get_recommendations at h
    cases hb : (if pyTruthy book_id then find_book df book_id none
      else if pyTruthy title then find_book df none title
      else Except.ok none) with
    | error e =>
      rw [hb] at h
      exact absurd h (by simp)
    | ok ob =>
      rw [hb] at h
      cases ob with
      | none =>
        injection h with h2
        rw [← h2]
        simp
      | some book =>
        dsimp only at h
        injection h with h2
        rw [← h2]
        rw [List.length_take]
        exact min_le_left _ _

def c8book : Book :=
  { book_id := "b1", title := "Dune", authors := "", ratings_count := 100,
    description := "", genres := [], similar := [] }

/-- Witness for C4 amended on a one-book catalog: the source is found
by id, the candidate pool is empty, and the call returns `ok []`. -/
theorem rank_sorted_truncated_det_witness :
    get_recommendations [] (fun _ _ => 0) [c8book] (some "b1") none 5 =
      Except.ok [] ∧
    (List.Pairwise (fun a b => b.final_score ≤ a.final_score)
        ([] : List Scored) ∧
      ([] : List Scored).length ≤ 5 ∧
      get_recommendations [] (fun _ _ => 0) [c8book] (some "b1") none 5 =
        get_recommendations [] (fun _ _ => 0) [c8book] (some "b1")
          none 5) :=
  ⟨rfl, rank_sorted_truncated_det [] (fun _ _ => 0) [c8book] (some "b1")
    none 5 [] rfl⟩

/-- C8 (amended): an unknown identifier, or a title that compiles as a
regular expression and matches no catalog title, yields the empty
not-found result with no exception; see
`invalid_regex_title_raises` for the exception path the original
claim rules out. -/
theorem notfound_returns_empty (genreCols : List String)
    (vecSim : Book → Book → ℚ) (df : List Book) (i t : String)
    (rx : RegEx) (k : Nat)
    (hid : ∀ r ∈ df, r.book_id ≠ i)
    (hok : reParse (lowerChars t) = Except.ok rx)
    (hnm : ∀ r ∈ df, reSearch rx (lowerChars r.title) = false) :
    get_recommendations genreCols vecSim df (some i) none k =
      Except.ok [] ∧
    get_recommendations genreCols vecSim df none (some t) k =
      Except.ok [] := by
  constructor
  · apply get_recommendations_of_none
    by_cases hi : i = ""
    · subst hi
      simp [pyTruthy, find_book]
    · have hp : pyTruthy (some i) = true := by simp [pyTruthy, hi]
      simp only [hp, if_true]
      exact find_book_id_none df i hid
  · apply get_recommendations_of_none
    by_cases ht0 : t = ""
    · subst ht0
      simp [pyTruthy, find_book]
    · have hp : pyTruthy (some t) = true := by simp [pyTruthy, ht0]
      simp only [pyTruthy] at hp ⊢
      simp only [hp, if_true]
      exact find_book_title_none df t rx hok hnm

def c8rx : RegEx := RegEx.cat (.lit 'z') (.cat (.lit 'z') .eps)

/-- Witness for C8 amended on a one-book catalog and the valid,
zero-match query `zz`. -/
theorem notfound_returns_empty_witness :
    (∀ r ∈ [c8book], r.book_id ≠ "zz") ∧
    reParse (lowerChars "zz") = Except.ok c8rx ∧
    (∀ r ∈ [c8book], reSearch c8rx (lowerChars r.title) = false) ∧
    (get_recommendations [] (fun _ _ => 0) [c8book] (some "zz") none 5 =
        Except.ok [] ∧
      get_recommendations [] (fun _ _ => 0) [c8book] none (some "zz") 5 =
        Except.ok []) :=
  ⟨by decide, by decide, by decide,
    notfound_returns_empty [] (fun _ _ => 0) [c8book] "zz" "zz" c8rx 5
      (by decide) (by decide) (by decide)⟩

/-- C8 counterexample: the title `(` is an invalid regular expression
(unterminated subpattern); pandas `str.contains` compiles it and the
resulting `re.error` propagates out of `find_book` and
`get_recommendations` to the caller instead of an empty not-found
result. -/
theorem invalid_regex_title_raises :
    find_book [c8book] none (some "(") = Except.error () ∧
    get_recommendations [] (fun _ _ => 0) [c8book] none (some "(") 5 =
      Except.error () :=
  ⟨rfl, rfl⟩

/-- C9: the serving catalog is restricted at load time to rows with
more than 20 ratings, so an item all of whose stored rows have
`ratings_count ≤ 20` is never found by id and never appears among
returned recommendation candidates. -/
theorem low_ratings_never_served (genreCols : List String)
    (vecSim : Book → Book → ℚ) (raw : List Book) (i : String)
    (book_id title : Option String) (k : Nat)
    (h : ∀ r ∈ raw, r.book_id = i → r.ratings_count ≤ 20) :
    find_book (load_data raw) (some i) none = Except.ok none ∧
    (∀ r ∈ load_data raw, 20 < r.ratings_count) ∧
    ∀ out, get_recommendations genreCols vecSim (load_data raw)
        book_id title k = Except.ok out →
      ∀ s ∈ out, s.row.book_id ≠ i := by
  have hmem : ∀ r ∈ load_data raw, r ∈ raw ∧ 20 < r.ratings_count := by
    intro r hr
    unfold load_data at hr
    refine ⟨List.mem_of_mem_filter hr, ?_⟩
    have := List.of_mem_filter hr
    simpa using this
  have hne : ∀ r ∈ load_data raw, r.book_id ≠ i := by
    intro r hr hri
    rcases hmem r hr with ⟨hraw, hrat⟩
    have := h r hraw hri
    omega
  refine ⟨find_book_id_none _ i hne, fun r hr => (hmem r hr).2, ?_⟩
  intro out hout s hs
  exact hne s.row (get_recommendations_row_mem genreCols vecSim
    (load_data raw) book_id title k out hout s hs)

def c9low : Book :=
  { book_id := "low", title := "Rare", authors := "", ratings_count := 3,
    description := "", genres := [], similar := [] }

def c9hi : Book :=
  { book_id := "hi", title := "Pop", authors := "", ratings_count := 100,
    description := "", genres := [], similar := [] }

/-- Witness for C9 on a two-book store where `low` has 3 ratings. -/
theorem low_ratings_never_served_witness :
    (∀ r ∈ [c9low, c9hi], r.book_id = "low" → r.ratings_count ≤ 20) ∧
    (find_book (load_data [c9low, c9hi]) (some "low") none =
        Except.ok none ∧
      (∀ r ∈ load_data [c9low, c9hi], 20 < r.ratings_count) ∧
      ∀ out, get_recommendations [] (fun _ _ => 0)
          (load_data [c9low, c9hi]) (some "hi") none 5 =
          Except.ok out →
        ∀ s ∈ out, s.row.book_id ≠ "low") :=
  ⟨by decide,
    low_ratings_never_served [] (fun _ _ => 0) [c9low, c9hi] "low"
      (some "hi") none 5 (by decide)⟩

/-! ## Multi-item (user-history) aggregation
Embeds `recommendation-system.py` (`recommend_for_user`, lines 410-437;
`recommender_evaluation.py` lines 252-274 repeat the same steps):
concatenate each found history item's single-item recommendations,
remove the user's own books, drop duplicate ids keeping the first
occurrence, attach `frequency` by counting ids via a `Counter` built
from the already-deduplicated frame, sort by `(frequency, final_score)`
descending, truncate to `k`.  The per-item single-item ranking
(`get_recommendations` of the same file) is passed in as `recsOf`. -/

/-- `drop_duplicates(subset=['book_id'])`: keep the first row per id. -/
def dedupById : List Scored → List Scored
  | [] => []
  | s :: rest =>
    s :: dedupById (rest.filter (fun x => x.row.book_id ≠ s.row.book_id))
termination_by l => l.length
decreasing_by
  exact lt_of_le_of_lt (List.length_filter_le _ _) (by simp)

/-- The aggregation stage of `recommend_for_user`, returning each kept
row together with its `frequency` value. -/
def recommend_for_user (recsOf : Book → List Scored)
    (user_books : List Book) (k : Nat) : List (Scored × Nat) :=
  let all := (user_books.map recsOf).filter (fun l => !l.isEmpty)
  if all.isEmpty then []
  else
    let combined := all.flatten
    let userIds := user_books.map (fun b => b.book_id)
    let kept := combined.filter (fun s => !(userIds.contains s.row.book_id))
    let deduped := dedupById kept
    let withFreq := deduped.map (fun s =>
      (s, (deduped.filter (fun x => x.row.book_id == s.row.book_id)).length))
    (stableSortDesc2 (fun p => (p.2 : ℚ)) (fun p => p.1.final_score)
      withFreq).take k

def c3rowX : Book :=
  { book_id := "x", title := "X", authors := "", ratings_count := 10,
    description := "", genres := [], similar := [] }

def c3rowY : Book :=
  { book_id := "y", title := "Y", authors := "", ratings_count := 10,
    description := "", genres := [], similar := [] }

def c3ba : Book :=
  { book_id := "a", title := "A", authors := "", ratings_count := 30,
    description := "", genres := [], similar := [] }

def c3bb : Book :=
  { book_id := "b", title := "B", authors := "", ratings_count := 30,
    description := "", genres := [], similar := [] }

def c3x1 : Scored :=
  { row := c3rowX, similar_books_score := 0, vector_score := 0,
    genre_score := 0, final_score := 9/10 }

def c3x2 : Scored :=
  { row := c3rowX, similar_books_score := 0, vector_score := 0,
    genre_score := 0, final_score := 8/10 }

def c3y : Scored :=
  { row := c3rowY, similar_books_score := 0, vector_score := 0,
    genre_score := 0, final_score := 1/2 }

/-- Single-item rankings for the two history items: both recommend
candidate `x`. -/
def c3recsOf (b : Book) : List Scored :=
  if b.book_id = "a" then [c3x1, c3y] else [c3x2]

/-- C3 at the failing input: both history items' single-item rankings
recommend candidate `x`, yet the returned frequency for `x` is 1, not
2, because the code counts frequencies only after dropping duplicate
ids. -/
theorem user_frequency_counted_after_dedup :
    recommend_for_user c3recsOf [c3ba, c3bb] 10 = [(c3x1, 1), (c3y, 1)] ∧
    (([c3ba, c3bb].map c3recsOf).filter
      (fun l => l.any (fun s => s.row.book_id == "x"))).length = 2 := by
  constructor
  · norm_num +decide [recommend_for_user, dedupById, stableSortDesc2,
      insertOrdDesc2, c3recsOf, c3ba, c3bb, c3x1, c3x2, c3y, c3rowX, c3rowY]
  · norm_num +decide [c3recsOf, c3ba, c3bb, c3x1, c3x2, c3y, c3rowX, c3rowY]

/-! ## difflib.SequenceMatcher.ratio
Executable embedding of CPython's `difflib.SequenceMatcher` with
`isjunk=None`, as used by both deduplication scripts.  `b2jFun` is the
`b2j` index (with the autojunk rule dropping elements of a `b` of
length at least 200 that occur more than `len(b)//100 + 1` times);
`flm` is `find_longest_match` (the dynamic chain-length pass followed
by the two non-junk extension loops; the junk extension loops are
no-ops since there is no junk); `matchTotal` sums the sizes of
`get_matching_blocks` by the same divide-at-the-longest-match
recursion, with fuel bounding the recursion depth by the total
interval size. -/

def junkDefaultA : Char := Char.ofNat 0

def junkDefaultB : Char := Char.ofNat 1

/-- `b2j.get(c, [])` after autojunk removal: the ascending indices of
`c` in `b`, or `[]` when `c` is popular in a long `b`. -/
def b2jFun (b : List Char) (c : Char) : List Nat :=
  if 200 ≤ b.length ∧ b.length / 100 + 1 < b.count c then []
  else (List.range b.length).filter (fun j => b.getD j junkDefaultA == c)

/-- Lookup in the `j2len` chain-length dictionary (default 0). -/
def jlGet (m : List (Nat × Nat)) (j : Nat) : Nat :=
  match m.find? (fun p => p.1 == j) with
  | some p => p.2
  | none => 0

/-- One row of the `find_longest_match` chain pass: fold the index list
of `a[i]`, building `newj2len` and updating the best block. -/
def flmStep (j2len : List (Nat × Nat)) (i : Nat) (js : List Nat)
    (blo bhi : Nat) (best : Nat × Nat × Nat) :
    List (Nat × Nat) × (Nat × Nat × Nat) :=
  js.foldl (fun acc j =>
    if blo ≤ j ∧ j < bhi then
      let k := (if j = 0 then 0 else jlGet j2len (j - 1)) + 1
      let best := acc.2
      ((j, k) :: acc.1,
        if best.2.2 < k then (i + 1 - k, j + 1 - k, k) else best)
    else acc) ([], best)

/-- The chain pass of `find_longest_match` over rows `alo ≤ i < ahi`. -/
def flmRows (a : List Char) (b2jf : Char → List Nat)
    (alo ahi blo bhi : Nat) : Nat × Nat × Nat :=
  ((List.range (ahi - alo)).foldl (fun acc d =>
    flmStep acc.1 (alo + d) (b2jf (a.getD (alo + d) junkDefaultA))
      blo bhi acc.2) ([], (alo, blo, 0))).2

/-- Backward extension of the best block over matching characters. -/
def extBack (a b : List Char) (alo blo : Nat) : Nat → Nat → Nat → Nat
  | 0, _, _ => 0
  | fuel + 1, i, j =>
    if alo < i ∧ blo < j ∧
        a.getD (i - 1) junkDefaultA = b.getD (j - 1) junkDefaultB then
      1 + extBack a b alo blo fuel (i - 1) (j - 1)
    else 0

/-- Forward extension of the best block over matching characters. -/
def extFwd (a b : List Char) (ahi bhi : Nat) : Nat → Nat → Nat → Nat
  | 0, _, _ => 0
  | fuel + 1, i, j =>
    if i < ahi ∧ j < bhi ∧
        a.getD i junkDefaultA = b.getD j junkDefaultB then
      1 + extFwd a b ahi bhi fuel (i + 1) (j + 1)
    else 0

/-- `find_longest_match(alo, ahi, blo, bhi)`. -/
def flm (a b : List Char) (b2jf : Char → List Nat)
    (alo ahi blo bhi : Nat) : Nat × Nat × Nat :=
  let r := flmRows a b2jf alo ahi blo bhi
  let back := extBack a b alo blo (a.length + 1) r.1 r.2.1
  let besti := r.1 - back
  let bestj := r.2.1 - back
  let size := r.2.2 + back
  let fwd := extFwd a b ahi bhi (a.length + 1) (besti + size) (bestj + size)
  (besti, bestj, size + fwd)

/-- Total size of all matching blocks: recurse left and right of the
longest match, exactly as `get_matching_blocks` accumulates them. -/
def matchTotal (a b : List Char) (b2jf : Char → List Nat) :
    Nat → Nat × Nat × Nat × Nat → Nat
  | 0, _ => 0
  | fuel + 1, (alo, ahi, blo, bhi) =>
    let r := flm a b b2jf alo ahi blo bhi
    if r.2.2 = 0 then 0
    else matchTotal a b b2jf fuel (alo, r.1, blo, r.2.1) + r.2.2 +
      matchTotal a b b2jf fuel (r.1 + r.2.2, ahi, r.2.1 + r.2.2, bhi)

/-- Total matched size for a pair of strings over their full ranges. -/
def mTot (s1 s2 : String) : Nat :=
  matchTotal s1.toList s2.toList (b2jFun s2.toList)
    (s1.toList.length + s2.toList.length + 1)
    (0, s1.toList.length, 0, s2.toList.length)

/-- `SequenceMatcher(None, s1, s2).ratio()`: `2*M/T`, or 1.0 when both
strings are empty. -/
def ratioSM (s1 s2 : String) : ℚ :=
  if s1.toList.length + s2.toList.length = 0 then 1
  else 2 * (mTot s1 s2 : ℚ) / ((s1.toList.length + s2.toList.length : Nat) : ℚ)

/-! ## Composite title similarity
Embeds `cleaned-book-data/book-deduplication.py` (`title_similarity`,
`get_words`).  Python evaluates the five sub-scores in floating point;
the embedding computes them exactly in ℚ. -/

/-- `str.split()`: split on whitespace runs, dropping empties.  Fuel is
the input length; every step consumes at least one character. -/
def splitWSAux : Nat → List Char → List (List Char)
  | 0, _ => []
  | _, [] => []
  | fuel + 1, c :: rest =>
    if pyIsSpace c then splitWSAux fuel rest
    else ((c :: rest).takeWhile (fun x => !pyIsSpace x)) ::
      splitWSAux fuel ((c :: rest).dropWhile (fun x => !pyIsSpace x))

def pySplit (s : String) : List String :=
  (splitWSAux s.toList.length s.toList).map (fun cs => String.mk cs)

/-- `get_words`: the set of whitespace-separated words of a title. -/
def getWords (t : String) : Finset String :=
  (pySplit t).toFinset

/-- Interleave a single space between words (`' '.join(...)`). -/
def joinSpaceChars : List (List Char) → List Char
  | [] => []
  | [w] => w
  | w :: ws => w ++ ' ' :: joinSpaceChars ws

/-- `' '.join(title.split()[:2])`: the first two words of a title. -/
def firstTwoWords (s : String) : String :=
  String.mk (joinSpaceChars ((splitWSAux s.toList.length s.toList).take 2))

/-- Sum of character counts of `cs` over an alphabet. -/
def countSum (alphabet cs : List Char) : Nat :=
  (alphabet.map (fun c => cs.count c)).sum

/-- The `np.sum(vec) or 1` denominator of the L1 normalisation. -/
def l1den (alphabet cs : List Char) : ℚ :=
  if countSum alphabet cs = 0 then 1 else (countSum alphabet cs : ℚ)

/-- Dot product of the two normalised character-frequency vectors. -/
def dotSum (alphabet c1 c2 : List Char) (s1 s2 : ℚ) : ℚ :=
  (alphabet.map
    (fun c => ((c1.count c : ℚ) / s1) * ((c2.count c : ℚ) / s2))).sum

/-- The character-frequency cosine of two titles: L1-normalised counts
over the union alphabet, dotted (`np.sum(vec) or 1` guards the zero
sums). -/
def charFreqCos (t1 t2 : String) : ℚ :=
  let c1 := t1.toList
  let c2 := t2.toList
  let alphabet := (c1 ++ c2).dedup
  if alphabet.isEmpty then 0
  else dotSum alphabet c1 c2 (l1den alphabet c1) (l1den alphabet c2)

/-- `title_similarity`: the weighted composite of sequence similarity,
word overlap, character-frequency cosine, leading-two-word similarity
and length penalty, with the empty and identical shortcuts. -/
def title_similarity (t1 t2 : String) : ℚ :=
  if t1 = "" ∨ t2 = "" then 0
  else if t1 = t2 then 1
  else
    let seqSim := ratioSM t1 t2
    let w1 := getWords t1
    let w2 := getWords t2
    let wordSim : ℚ := if w1 = ∅ ∨ w2 = ∅ then 0
      else ((w1 ∩ w2).card : ℚ) / ((max w1.card w2.card : Nat) : ℚ)
    let charSim := charFreqCos t1 t2
    let initSim := ratioSM (firstTwoWords t1) (firstTwoWords t2)
    let lenPen : ℚ := 1 -
      ((max t1.length t2.length - min t1.length t2.length : Nat) : ℚ) /
        (((max t1.length t2.length : Nat) : ℚ) + 1)
    35/100 * seqSim + 30/100 * wordSim + 15/100 * charSim +
      15/100 * initSim + 5/100 * lenPen

lemma dedup_append_perm (c1 c2 : List Char) :
    (c1 ++ c2).dedup.Perm (c2 ++ c1).dedup := by
  rw [List.perm_ext_iff_of_nodup (List.nodup_dedup _) (List.nodup_dedup _)]
  intro a
  simp only [List.mem_dedup, List.mem_append]
  tauto

lemma countSum_perm {A B : List Char} (h : A.Perm B) (cs : List Char) :
    countSum A cs = countSum B cs :=
  (h.map _).sum_eq

lemma l1den_perm {A B : List Char} (h : A.Perm B) (cs : List Char) :
    l1den A cs = l1den B cs := by
  unfold l1den
  rw [countSum_perm h]

lemma dotSum_perm_swap {A B : List Char} (h : A.Perm B)
    (c1 c2 : List Char) (s1 s2 : ℚ) :
    dotSum A c1 c2 s1 s2 = dotSum B c2 c1 s2 s1 := by
  unfold dotSum
  have hswap : (B.map
      (fun c => ((c2.count c : ℚ) / s2) * ((c1.count c : ℚ) / s1))).sum =
      (B.map
        (fun c => ((c1.count c : ℚ) / s1) * ((c2.count c : ℚ) / s2))).sum := by
    congr 1
    apply List.map_congr_left
    intro c _
    ring
  rw [hswap]
  exact (h.map _).sum_eq

/-- The character-frequency cosine is symmetric. -/
lemma charFreqCos_comm (t1 t2 : String) :
    charFreqCos t1 t2 = charFreqCos t2 t1 := by
  simp only [charFreqCos]
  have hAB := dedup_append_perm t1.toList t2.toList
  by_cases hA : ((t1.toList ++ t2.toList).dedup).isEmpty
  · have hA' : (t1.toList ++ t2.toList).dedup = [] :=
      List.isEmpty_iff.mp hA
    have hB' : (t2.toList ++ t1.toList).dedup = [] := by
      rw [hA'] at hAB
      exact hAB.symm.eq_nil
    rw [hA', hB']
    rfl
  · have hB : ¬ ((t2.toList ++ t1.toList).dedup).isEmpty := by
      intro hB0
      apply hA
      have hB' : (t2.toList ++ t1.toList).dedup = [] :=
        List.isEmpty_iff.mp hB0
      rw [hB'] at hAB
      rw [hAB.eq_nil]
      rfl
    rw [if_neg (by simpa using hA), if_neg (by simpa using hB)]
    rw [dotSum_perm_swap hAB, l1den_perm hAB, l1den_perm hAB]

/-- C6 (amended): the word-overlap, character-frequency and
length-penalty components are symmetric, and the composite scorer is
symmetric for every pair on which the difflib sequence ratio is
symmetric both for the full titles and for their leading two words. -/
theorem title_similarity_symm_of_ratio_symm (a b : String)
    (h1 : ratioSM a b = ratioSM b a)
    (h2 : ratioSM (firstTwoWords a) (firstTwoWords b) =
      ratioSM (firstTwoWords b) (firstTwoWords a)) :
    title_similarity a b = title_similarity b a := by
  unfold title_similarity
  by_cases ha : a = ""
  · simp [ha]
  · by_cases hb : b = ""
    · simp [hb]
    · by_cases hab : a = b
      · subst hab
        rfl
      · have hba : ¬ b = a := fun h => hab h.symm
        simp only [ha, hb, hab, hba, or_self, if_false, false_or, or_false]
        rw [h1, h2, charFreqCos_comm]
        have hword : (if getWords a = ∅ ∨ getWords b = ∅ then (0 : ℚ)
            else ((getWords a ∩ getWords b).card : ℚ) /
              ((max (getWords a).card (getWords b).card : Nat) : ℚ)) =
            (if getWords b = ∅ ∨ getWords a = ∅ then (0 : ℚ)
            else ((getWords b ∩ getWords a).card : ℚ) /
              ((max (getWords b).card (getWords a).card : Nat) : ℚ)) := by
          by_cases hw : getWords a = ∅ ∨ getWords b = ∅
          · rw [if_pos hw, if_pos hw.symm]
          · rw [if_neg hw, if_neg (fun h => hw h.symm),
              Finset.inter_comm, max_comm]
        have hlen : (1 -
            ((max a.length b.length - min a.length b.length : Nat) : ℚ) /
              (((max a.length b.length : Nat) : ℚ) + 1)) =
            (1 -
            ((max b.length a.length - min b.length a.length : Nat) : ℚ) /
              (((max b.length a.length : Nat) : ℚ) + 1)) := by
          rw [max_comm a.length b.length, min_comm a.length b.length]
        rw [hword, hlen]

/-- Counterexample to C6 as stated: the difflib sequence ratio is
order-dependent, so the composite score of the pair (tide, diet) is
17/80 one way and 27/80 the other. -/
theorem title_similarity_asymmetric :
    title_similarity "tide" "diet" ≠ title_similarity "diet" "tide" := by
  have m1 : mTot "tide" "diet" = 1 := by decide
  have m2 : mTot "diet" "tide" = 2 := by decide
  have f1 : firstTwoWords "tide" = "tide" := by decide
  have f2 : firstTwoWords "diet" = "diet" := by decide
  have e1 : title_similarity "tide" "diet" = 17/80 := by
    rw [title_similarity]
    norm_num +decide [ratioSM, m1, m2, f1, f2, getWords, pySplit, splitWSAux,
      pyIsSpace, charFreqCos, List.dedup_cons_of_mem, List.dedup_cons_of_not_mem, List.count_cons,
      countSum, l1den, dotSum]
  have e2 : title_similarity "diet" "tide" = 27/80 := by
    rw [title_similarity]
    norm_num +decide [ratioSM, m1, m2, f1, f2, getWords, pySplit, splitWSAux,
      pyIsSpace, charFreqCos, List.dedup_cons_of_mem, List.dedup_cons_of_not_mem, List.count_cons,
      countSum, l1den, dotSum]
  rw [e1, e2]
  norm_num

/-- Witness for the amended C6 on the pair (ab, ba), whose sequence
ratio is symmetric in both directions. -/
theorem title_similarity_symm_witness :
    ratioSM "ab" "ba" = ratioSM "ba" "ab" ∧
    ratioSM (firstTwoWords "ab") (firstTwoWords "ba") =
      ratioSM (firstTwoWords "ba") (firstTwoWords "ab") ∧
    title_similarity "ab" "ba" = title_similarity "ba" "ab" := by
  have m1 : mTot "ab" "ba" = 1 := by decide
  have m2 : mTot "ba" "ab" = 1 := by decide
  have f1 : firstTwoWords "ab" = "ab" := by decide
  have f2 : firstTwoWords "ba" = "ba" := by decide
  have h1 : ratioSM "ab" "ba" = ratioSM "ba" "ab" := by
    norm_num [ratioSM, m1, m2]
  have h2 : ratioSM (firstTwoWords "ab") (firstTwoWords "ba") =
      ratioSM (firstTwoWords "ba") (firstTwoWords "ab") := by
    rw [f1, f2]
    exact h1
  exact ⟨h1, h2, title_similarity_symm_of_ratio_symm "ab" "ba" h1 h2⟩

/-! ## Title normalisation
Embeds `cleaned-book-data/book-deduplication.py` (`normalize_title`).
Each regex substitution is realised as a character scanner with the
same semantics on the ASCII range (`.` not matching a newline, `$`
allowing one final newline, lazy `\(.*?\)`, `\b`-delimited stopwords).
The fuel of each scanner is the input length; every step consumes at
least one character. -/

/-- Python `\w` on the ASCII range. -/
def pyIsWordChar (c : Char) : Bool :=
  c.isAlphanum || c = '_'

/-- `re.sub(r'\(.*?\)', '', s)`: drop every lazy parenthesised span
(from a `(` through the nearest following `)` with no newline
between). -/
def removeParens : Nat → List Char → List Char
  | 0, _ => []
  | _, [] => []
  | fuel + 1, c :: rest =>
    if c = '(' then
      if (rest.dropWhile (fun x => x ≠ ')' && x ≠ '\n')).head? = some ')' then
        removeParens fuel (rest.dropWhile (fun x => x ≠ ')' && x ≠ '\n')).tail
      else c :: removeParens fuel rest
    else c :: removeParens fuel rest

/-- `re.sub(r':.*$', '', s)`: drop from the leftmost `:` whose suffix
contains no newline (save possibly one final newline, which stays). -/
def removeColon : List Char → List Char
  | [] => []
  | c :: rest =>
    if c = ':' then
      if rest.contains '\n' then
        if rest.getLast? = some '\n' && !(rest.dropLast.contains '\n') then
          ['\n']
        else c :: removeColon rest
      else []
    else c :: removeColon rest

/-- Case-insensitive prefix test of a lowercase pattern. -/
def ciPrefix : List Char → List Char → Bool
  | [], _ => true
  | _ :: _, [] => false
  | p :: ps, c :: cs => (c.toLower == p) && ciPrefix ps cs

/-- Case-insensitive substring test (`re.search` of a literal
`(?i)` pattern). -/
def ciSub (pat : List Char) : List Char → Bool
  | [] => ciPrefix pat []
  | c :: rest => ciPrefix pat (c :: rest) || ciSub pat rest

/-- `re.sub('(?i)' + pat, '', s)` for a literal lowercase pattern:
remove all non-overlapping occurrences, scanning left to right. -/
def removeAllCI (pat : List Char) : Nat → List Char → List Char
  | 0, _ => []
  | _, [] => []
  | fuel + 1, c :: rest =>
    if ciPrefix pat (c :: rest) then
      removeAllCI pat fuel ((c :: rest).drop pat.length)
    else c :: removeAllCI pat fuel rest

/-- The `edition_patterns` list, in source order. -/
def editionPatterns : List String :=
  ["illustrated edition", "audiobook", "kindle edition", "paperback",
    "hardcover", "ebook", "special edition", "collector's edition",
    "unabridged", "abridged", "anniversary edition", "revised edition",
    "complete edition"]

/-- The stopword list removed with `\b` boundaries, in source order. -/
def stopwords : List String :=
  ["the", "a", "an", "and", "or", "but", "of", "for", "in", "on", "by",
    "to", "with"]

/-- `re.sub(r'\b' + w + r'\b', ' ', s)` for a word-character-only `w`:
replace each maximal word-character run equal to `w` by a space. -/
def removeWordToken (w : List Char) : Nat → List Char → List Char
  | 0, _ => []
  | _, [] => []
  | fuel + 1, c :: rest =>
    if pyIsWordChar c then
      (if (c :: rest).takeWhile pyIsWordChar = w then [' ']
        else (c :: rest).takeWhile pyIsWordChar) ++
        removeWordToken w fuel ((c :: rest).dropWhile pyIsWordChar)
    else c :: removeWordToken w fuel rest

/-- `re.sub(r'\s+', ' ', s)`: collapse whitespace runs to one space. -/
def collapseSpaces : Nat → List Char → List Char
  | 0, _ => []
  | _, [] => []
  | fuel + 1, c :: rest =>
    if pyIsSpace c then
      ' ' :: collapseSpaces fuel (rest.dropWhile pyIsSpace)
    else c :: collapseSpaces fuel rest

/-- `str.strip()` on the ASCII range. -/
def pyStrip (cs : List Char) : List Char :=
  (cs.dropWhile pyIsSpace).rdropWhile pyIsSpace

/-- `[^\w\s]` → space. -/
def punctToSpace (c : Char) : Char :=
  if pyIsWordChar c || pyIsSpace c then c else ' '

/-- `normalize_title`: lowercase, drop parenthesised spans, drop from
the first colon, drop edition markers, map punctuation to spaces, drop
stopword tokens, collapse whitespace and trim. -/
def normalize_title (s : String) : String :=
  let c0 := s.toList.map Char.toLower
  let c1 := removeParens c0.length c0
  let c2 := removeColon c1
  let c3 := editionPatterns.foldl
    (fun acc p => removeAllCI p.toList acc.length acc) c2
  let c4 := c3.map punctToSpace
  let c5 := stopwords.foldl
    (fun acc w => removeWordToken w.toList acc.length acc) c4
  let c6 := collapseSpaces c5.length c5
  String.mk (pyStrip c6)

/-- Named stages of `normalize_title`, for reasoning; `normalize_title`
is definitionally the composite of these. -/
def normC0 (s : String) : List Char := s.toList.map Char.toLower

def normC1 (s : String) : List Char := removeParens (normC0 s).length (normC0 s)

def normC2 (s : String) : List Char := removeColon (normC1 s)

def normC3 (s : String) : List Char :=
  editionPatterns.foldl (fun acc p => removeAllCI p.toList acc.length acc)
    (normC2 s)

def normC4 (s : String) : List Char := (normC3 s).map punctToSpace

def normC5 (s : String) : List Char :=
  stopwords.foldl (fun acc w => removeWordToken w.toList acc.length acc)
    (normC4 s)

def normC6 (s : String) : List Char := collapseSpaces (normC5 s).length (normC5 s)

/-- Counterexample to C5 as stated: stopword removal can create an
edition-marker phrase that only a second pass removes, so
normalisation is not idempotent. -/
theorem normalize_title_not_idempotent :
    normalize_title (normalize_title "illustrated the edition") ≠
      normalize_title "illustrated the edition" := by
  decide

lemma toLower_idem (c : Char) : c.toLower.toLower = c.toLower := by
  unfold Char.toLower
  by_cases h : c.toNat ≥ 65 ∧ c.toNat ≤ 90
  · rw [if_pos h]
    have hv : (c.toNat + 32).isValidChar := Or.inl (by omega)
    have hval : (Char.ofNat (c.toNat + 32)).toNat = c.toNat + 32 := by
      simp [Char.ofNat, hv]
      rfl
    have hcond : ¬((Char.ofNat (c.toNat + 32)).toNat ≥ 65 ∧
        (Char.ofNat (c.toNat + 32)).toNat ≤ 90) := by
      rw [hval]
      omega
    rw [if_neg hcond]
  · rw [if_neg h, if_neg h]

lemma dropWhile_length_lt {p : Char → Bool} {c : Char} {rest : List Char}
    (h : p c = true) :
    ((c :: rest).dropWhile p).length < (c :: rest).length := by
  rw [List.dropWhile_cons_of_pos h]
  exact Nat.lt_succ_of_le (List.dropWhile_sublist p).length_le

/-- The maximal word-character runs of a string, in order. -/
def wordRuns : List Char → List (List Char)
  | [] => []
  | c :: rest =>
    if h : pyIsWordChar c then
      ((c :: rest).takeWhile pyIsWordChar) ::
        wordRuns ((c :: rest).dropWhile pyIsWordChar)
    else wordRuns rest
termination_by l => l.length
decreasing_by
  · exact dropWhile_length_lt h
  · simp

lemma removeParens_sublist : ∀ (fuel : Nat) (cs : List Char),
    (removeParens fuel cs).Sublist cs := by
  intro fuel
  induction fuel with
  | zero => intro cs; simp [removeParens]
  | succ n ih =>
    intro cs
    match cs with
    | [] => simp [removeParens]
    | d :: rest =>
      rw [removeParens]
      by_cases hd : d = '('
      · simp only [hd, if_true]
        by_cases hh : (rest.dropWhile (fun x => x ≠ ')' && x ≠ '\n')).head? =
            some ')'
        · rw [if_pos hh]
          refine List.Sublist.trans (ih _) ?_
          refine List.Sublist.trans (List.tail_sublist _) ?_
          exact List.Sublist.trans (List.dropWhile_sublist _)
            (List.sublist_cons_self _ _)
        · rw [if_neg hh]
          exact List.Sublist.cons₂ _ (ih rest)
      · simp only [hd, if_false]
        exact List.Sublist.cons₂ _ (ih rest)

lemma removeColon_sublist : ∀ (cs : List Char),
    (removeColon cs).Sublist cs := by
  intro cs
  induction cs with
  | nil => simp [removeColon]
  | cons d rest ih =>
    rw [removeColon]
    by_cases hd : d = ':'
    · simp only [hd, if_true]
      by_cases hn : rest.contains '\n'
      · simp only [hn, if_true]
        by_cases hl : rest.getLast? = some '\n' && !(rest.dropLast.contains '\n')
        · rw [if_pos hl]
          refine List.Sublist.cons _ ?_
          rw [List.singleton_sublist]
          have h1 : rest.getLast? = some '\n' := by
            have := hl
            simp only [Bool.and_eq_true] at this
            simpa using this.1
          exact List.mem_of_mem_getLast? h1
        · rw [if_neg hl]
          exact List.Sublist.cons₂ _ ih
      · simp only [hn, Bool.false_eq_true, if_false]
        exact List.nil_sublist _
    · simp only [hd, if_false]
      exact List.Sublist.cons₂ _ ih

lemma removeAllCI_sublist (pat : List Char) : ∀ (fuel : Nat) (cs : List Char),
    (removeAllCI pat fuel cs).Sublist cs := by
  intro fuel
  induction fuel with
  | zero => intro cs; simp [removeAllCI]
  | succ n ih =>
    intro cs
    match cs with
    | [] => simp [removeAllCI]
    | d :: rest =>
      rw [removeAllCI]
      by_cases hp : ciPrefix pat (d :: rest)
      · rw [if_pos hp]
        exact List.Sublist.trans (ih _) (List.drop_sublist _ _)
      · rw [if_neg hp]
        exact List.Sublist.cons₂ _ (ih rest)

lemma mem_removeWordToken (w : List Char) : ∀ (fuel : Nat) (cs : List Char),
    ∀ c ∈ removeWordToken w fuel cs, c ∈ cs ∨ c = ' ' := by
  intro fuel
  induction fuel with
  | zero => intro cs c h; simp [removeWordToken] at h
  | succ n ih =>
    intro cs c h
    match cs with
    | [] => simp [removeWordToken] at h
    | d :: rest =>
      rw [removeWordToken] at h
      by_cases hd : pyIsWordChar d
      · simp only [hd, if_true, List.mem_append] at h
        rcases h with h | h
        · by_cases hw : (d :: rest).takeWhile pyIsWordChar = w
          · rw [if_pos hw] at h
            simp at h
            exact Or.inr h
          · rw [if_neg hw] at h
            exact Or.inl ((List.takeWhile_sublist _).mem h)
        · rcases ih _ c h with h' | h'
          · exact Or.inl ((List.dropWhile_sublist _).mem h')
          · exact Or.inr h'
      · simp only [hd, Bool.false_eq_true, if_false, List.mem_cons] at h
        rcases h with rfl | h'
        · exact Or.inl (List.mem_cons_self _ _)
        · rcases ih rest c h' with h'' | h''
          · exact Or.inl (List.mem_cons_of_mem _ h'')
          · exact Or.inr h''

lemma mem_collapseSpaces : ∀ (fuel : Nat) (cs : List Char),
    ∀ c ∈ collapseSpaces fuel cs,
      (c ∈ cs ∧ pyIsSpace c = false) ∨ c = ' ' := by
  intro fuel
  induction fuel with
  | zero => intro cs c h; simp [collapseSpaces] at h
  | succ n ih =>
    intro cs c h
    match cs with
    | [] => simp [collapseSpaces] at h
    | d :: rest =>
      rw [collapseSpaces] at h
      by_cases hd : pyIsSpace d
      · simp only [hd, if_true, List.mem_cons] at h
        rcases h with rfl | h'
        · exact Or.inr rfl
        · rcases ih _ c h' with ⟨h1, h2⟩ | h''
          · exact Or.inl ⟨List.mem_cons_of_mem _
              ((List.dropWhile_sublist _).mem h1), h2⟩
          · exact Or.inr h''
      · simp only [hd, Bool.false_eq_true, if_false, List.mem_cons] at h
        rcases h with rfl | h'
        · exact Or.inl ⟨List.mem_cons_self _ _, by simpa using hd⟩
        · rcases ih rest c h' with ⟨h1, h2⟩ | h''
          · exact Or.inl ⟨List.mem_cons_of_mem _ h1, h2⟩
          · exact Or.inr h''

lemma pyStrip_sublist (cs : List Char) : (pyStrip cs).Sublist cs := by
  unfold pyStrip
  exact List.Sublist.trans ((List.rdropWhile_prefix _ _).sublist)
    (List.dropWhile_sublist pyIsSpace)

lemma space_not_word {c : Char} (h : pyIsSpace c = true) :
    pyIsWordChar c = false := by
  unfold pyIsSpace at h
  simp only [Bool.or_eq_true, decide_eq_true_eq] at h
  rcases h with ((((h | h) | h) | h) | h) | h <;> subst h <;> decide

lemma collapseSpaces_head (n : Nat) (X : List Char) (e : Char)
    (hX : X.head? = some e) (he : pyIsSpace e = false) :
    (collapseSpaces n X).head? = some e ∨ collapseSpaces n X = [] := by
  cases n with
  | zero => exact Or.inr (by simp [collapseSpaces])
  | succ m =>
    match X, hX with
    | e :: rest, rfl =>
      rw [collapseSpaces]
      simp only [he, Bool.false_eq_true, if_false]
      exact Or.inl rfl

lemma collapseSpaces_chain : ∀ (fuel : Nat) (cs : List Char),
    List.Chain' (fun x y => ¬(pyIsSpace x = true ∧ pyIsSpace y = true))
      (collapseSpaces fuel cs) := by
  intro fuel
  induction fuel with
  | zero => intro cs; simp [collapseSpaces]
  | succ n ih =>
    intro cs
    match cs with
    | [] => simp [collapseSpaces]
    | d :: rest =>
      rw [collapseSpaces]
      by_cases hd : pyIsSpace d
      · simp only [hd, if_true]
        rw [List.chain'_cons']
        refine ⟨?_, ih _⟩
        intro y hy
        cases hX : (rest.dropWhile pyIsSpace).head? with
        | none =>
          cases hcol : collapseSpaces n (rest.dropWhile pyIsSpace) with
          | nil => rw [hcol] at hy; simp at hy
          | cons z zs =>
            cases hdw : rest.dropWhile pyIsSpace with
            | nil => rw [hdw] at hcol; cases n <;> simp [collapseSpaces] at hcol
            | cons w ws => rw [hdw] at hX; simp at hX
        | some e =>
          have he : pyIsSpace e = false := by
            have := List.head?_dropWhile_not pyIsSpace rest
            rw [hX] at this
            exact this
          rcases collapseSpaces_head n _ e hX he with h | h
          · rw [h] at hy
            simp only [Option.mem_some_iff] at hy
            subst hy
            intro hcon
            rw [he] at hcon
            exact absurd hcon.2 (by simp)
          · rw [h] at hy
            simp at hy
      · simp only [hd, Bool.false_eq_true, if_false]
        rw [List.chain'_cons']
        refine ⟨?_, ih _⟩
        intro y hy hcon
        exact absurd hcon.1 hd

lemma rdropWhile_append_rtakeWhile (p : Char → Bool) (l : List Char) :
    List.rdropWhile p l ++ List.rtakeWhile p l = l := by
  unfold List.rdropWhile List.rtakeWhile
  rw [← List.reverse_append, List.takeWhile_append_dropWhile,
    List.reverse_reverse]

lemma dropWhile_eq_self_of_head {p : Char → Bool} {l : List Char}
    (h : ∀ e, l.head? = some e → p e = false) :
    List.dropWhile p l = l := by
  cases l with
  | nil => rfl
  | cons a as =>
    rw [List.dropWhile_cons, h a rfl]
    simp

lemma pyStrip_dropWhile_self (cs : List Char) :
    List.dropWhile pyIsSpace (pyStrip cs) = pyStrip cs := by
  apply dropWhile_eq_self_of_head
  intro e he
  unfold pyStrip at he
  rcases List.rdropWhile_prefix pyIsSpace (List.dropWhile pyIsSpace cs)
    with ⟨t, ht⟩
  cases hr : List.rdropWhile pyIsSpace (List.dropWhile pyIsSpace cs) with
  | nil =>
    rw [hr] at he
    simp at he
  | cons a as =>
    rw [hr] at he
    simp only [List.head?_cons, Option.some_inj] at he
    subst he
    have hXhead : (List.dropWhile pyIsSpace cs).head? = some a := by
      rw [← ht, hr]
      rfl
    have h0 := List.head?_dropWhile_not pyIsSpace cs
    rw [hXhead] at h0
    exact h0

lemma pyStrip_rdropWhile_self (cs : List Char) :
    List.rdropWhile pyIsSpace (pyStrip cs) = pyStrip cs := by
  unfold pyStrip
  exact List.rdropWhile_idempotent _ _

lemma word_not_space {c : Char} (h : pyIsWordChar c = true) :
    pyIsSpace c = false := by
  cases hs : pyIsSpace c
  · rfl
  · rw [space_not_word hs] at h
    cases h

lemma wordRuns_cons_not_word {c : Char} {l : List Char}
    (h : ¬ pyIsWordChar c = true) : wordRuns (c :: l) = wordRuns l := by
  rw [wordRuns]
  rw [dif_neg h]

lemma wordRuns_cons_word {c : Char} {l : List Char}
    (h : pyIsWordChar c = true) :
    wordRuns (c :: l) = ((c :: l).takeWhile pyIsWordChar) ::
      wordRuns ((c :: l).dropWhile pyIsWordChar) := by
  rw [wordRuns]
  rw [dif_pos h]

lemma wordRuns_all_not_word {sp : List Char}
    (h : ∀ c ∈ sp, pyIsWordChar c = false) : wordRuns sp = [] := by
  induction sp with
  | nil => rw [wordRuns]
  | cons a l ih =>
    rw [wordRuns_cons_not_word (by simp [h a (List.mem_cons_self a l)])]
    exact ih (fun c hc => h c (List.mem_cons_of_mem a hc))

lemma wordRuns_dropWhile_space (l : List Char) :
    wordRuns (l.dropWhile pyIsSpace) = wordRuns l := by
  induction l with
  | nil => rfl
  | cons a l ih =>
    by_cases ha : pyIsSpace a
    · rw [List.dropWhile_cons_of_pos ha, ih,
        wordRuns_cons_not_word (by simp [space_not_word ha])]
    · rw [List.dropWhile_cons_of_neg ha]

lemma takeWhile_eq_nil_of_head {p : Char → Bool} {X : List Char}
    (h : ∀ e, X.head? = some e → p e = false) :
    X.takeWhile p = [] := by
  cases X with
  | nil => rfl
  | cons a as =>
    rw [List.takeWhile_cons, h a rfl]
    simp

lemma takeWhile_append_of_all {p : Char → Bool} {run X : List Char}
    (hall : ∀ c ∈ run, p c = true)
    (hX : ∀ e, X.head? = some e → p e = false) :
    (run ++ X).takeWhile p = run := by
  rw [List.takeWhile_append]
  have htk : run.takeWhile p = run := List.takeWhile_eq_self_iff.mpr hall
  rw [htk]
  rw [if_pos rfl, takeWhile_eq_nil_of_head hX, List.append_nil]

lemma dropWhile_append_of_all {p : Char → Bool} {run X : List Char}
    (hall : ∀ c ∈ run, p c = true)
    (hX : ∀ e, X.head? = some e → p e = false) :
    (run ++ X).dropWhile p = X := by
  rw [List.dropWhile_append]
  have hdp : run.dropWhile p = [] := List.dropWhile_eq_nil_iff.mpr hall
  rw [hdp]
  simp only [List.isEmpty_nil, if_true]
  exact dropWhile_eq_self_of_head hX

lemma wordRuns_run_append {run X : List Char} (hne : run ≠ [])
    (hall : ∀ c ∈ run, pyIsWordChar c = true)
    (hX : ∀ e, X.head? = some e → pyIsWordChar e = false) :
    wordRuns (run ++ X) = run :: wordRuns X := by
  match run, hne with
  | r :: run', _ =>
    have hr : pyIsWordChar r = true := hall r (List.mem_cons_self _ _)
    have hcons : (r :: run') ++ X = r :: (run' ++ X) := rfl
    rw [hcons, wordRuns_cons_word hr, ← hcons,
      takeWhile_append_of_all hall hX, dropWhile_append_of_all hall hX]

lemma wordRuns_append_spaces {sp : List Char}
    (hsp : ∀ c ∈ sp, pyIsSpace c = true) :
    ∀ m, wordRuns (m ++ sp) = wordRuns m := by
  intro m
  induction m using wordRuns.induct with
  | case1 =>
    rw [List.nil_append, wordRuns_all_not_word
      (fun c hc => space_not_word (hsp c hc)), wordRuns]
  | case2 c rest h ih =>
    have hrun : (c :: rest).takeWhile pyIsWordChar ++
        (c :: rest).dropWhile pyIsWordChar = c :: rest :=
      List.takeWhile_append_dropWhile _ _
    have hne : (c :: rest).takeWhile pyIsWordChar ≠ [] := by
      rw [List.takeWhile_cons, if_pos h]
      simp
    have hall : ∀ x ∈ (c :: rest).takeWhile pyIsWordChar,
        pyIsWordChar x = true :=
      fun x hx => List.mem_takeWhile_imp hx
    have hXhead : ∀ e,
        ((c :: rest).dropWhile pyIsWordChar ++ sp).head? = some e →
        pyIsWordChar e = false := by
      intro e he
      cases htail : (c :: rest).dropWhile pyIsWordChar with
      | nil =>
        rw [htail, List.nil_append] at he
        exact space_not_word (hsp e (List.mem_of_mem_head? he))
      | cons a as =>
        rw [htail] at he
        simp only [List.cons_append, List.head?_cons, Option.some_inj] at he
        subst he
        have h0 := List.head?_dropWhile_not pyIsWordChar (c :: rest)
        rw [htail] at h0
        exact h0
    calc wordRuns ((c :: rest) ++ sp)
        = wordRuns (((c :: rest).takeWhile pyIsWordChar ++
            (c :: rest).dropWhile pyIsWordChar) ++ sp) := by rw [hrun]
      _ = wordRuns ((c :: rest).takeWhile pyIsWordChar ++
            ((c :: rest).dropWhile pyIsWordChar ++ sp)) := by
          rw [List.append_assoc]
      _ = (c :: rest).takeWhile pyIsWordChar ::
            wordRuns ((c :: rest).dropWhile pyIsWordChar ++ sp) :=
          wordRuns_run_append hne hall hXhead
      _ = (c :: rest).takeWhile pyIsWordChar ::
            wordRuns ((c :: rest).dropWhile pyIsWordChar) := by rw [ih]
      _ = wordRuns (c :: rest) := (wordRuns_cons_word h).symm
  | case3 c rest h ih =>
    have hcons : (c :: rest) ++ sp = c :: (rest ++ sp) := rfl
    rw [hcons, wordRuns_cons_not_word h, ih, wordRuns_cons_not_word h]

lemma wordRuns_rdropWhile_space (l : List Char) :
    wordRuns (l.rdropWhile pyIsSpace) = wordRuns l := by
  have hdec := rdropWhile_append_rtakeWhile pyIsSpace l
  have hsp : ∀ c ∈ l.rtakeWhile pyIsSpace, pyIsSpace c = true :=
    fun c hc => List.mem_rtakeWhile_imp hc
  calc wordRuns (l.rdropWhile pyIsSpace)
      = wordRuns (l.rdropWhile pyIsSpace ++ l.rtakeWhile pyIsSpace) :=
        (wordRuns_append_spaces hsp _).symm
    _ = wordRuns l := by rw [hdec]

lemma wordRuns_pyStrip (cs : List Char) :
    wordRuns (pyStrip cs) = wordRuns cs := by
  unfold pyStrip
  rw [wordRuns_rdropWhile_space, wordRuns_dropWhile_space]

lemma collapseSpaces_nonspace_prefix :
    ∀ (pre : List Char) (cs : List Char) (fuel : Nat),
    (∀ c ∈ pre, pyIsSpace c = false) → pre.length + cs.length ≤ fuel →
    collapseSpaces fuel (pre ++ cs) =
      pre ++ collapseSpaces (fuel - pre.length) cs := by
  intro pre
  induction pre with
  | nil =>
    intro cs fuel _ _
    simp
  | cons d pre' ih =>
    intro cs fuel hall hlen
    match fuel with
    | 0 => simp at hlen
    | n + 1 =>
      have hd : pyIsSpace d = false := hall d (List.mem_cons_self _ _)
      have hcons : (d :: pre') ++ cs = d :: (pre' ++ cs) := rfl
      rw [hcons, collapseSpaces]
      simp only [hd, Bool.false_eq_true, if_false]
      rw [ih cs n (fun c hc => hall c (List.mem_cons_of_mem _ hc))
        (by simp at hlen ⊢; omega)]
      have harith : n - pre'.length = n + 1 - (d :: pre').length := by
        simp
      rw [harith]
      rfl

lemma collapseSpaces_head_not_word (fuel : Nat) (X : List Char)
    (hX : ∀ e, X.head? = some e → pyIsWordChar e = false) :
    ∀ e, (collapseSpaces fuel X).head? = some e → pyIsWordChar e = false := by
  intro e he
  match fuel, X with
  | 0, _ => simp [collapseSpaces] at he
  | _ + 1, [] => simp [collapseSpaces] at he
  | n + 1, d :: rest =>
    rw [collapseSpaces] at he
    by_cases hd : pyIsSpace d
    · simp only [hd, if_true, List.head?_cons, Option.some_inj] at he
      subst he
      decide
    · simp only [hd, Bool.false_eq_true, if_false, List.head?_cons,
        Option.some_inj] at he
      subst he
      exact hX _ rfl

lemma wordRuns_collapseSpaces : ∀ (bound : Nat) (cs : List Char),
    cs.length ≤ bound → ∀ (fuel : Nat), cs.length ≤ fuel →
    wordRuns (collapseSpaces fuel cs) = wordRuns cs := by
  intro bound
  induction bound with
  | zero =>
    intro cs hb fuel hf
    have : cs = [] := List.length_eq_zero.mp (Nat.le_zero.mp hb)
    subst this
    cases fuel <;> rfl
  | succ N ihN =>
    intro cs hb fuel hf
    match cs with
    | [] => cases fuel <;> rfl
    | c :: rest =>
      match fuel with
      | 0 => simp at hf
      | n + 1 =>
        by_cases hw : pyIsWordChar c
        · have hrun : (c :: rest).takeWhile pyIsWordChar ++
              (c :: rest).dropWhile pyIsWordChar = c :: rest :=
            List.takeWhile_append_dropWhile _ _
          have hall : ∀ x ∈ (c :: rest).takeWhile pyIsWordChar,
              pyIsWordChar x = true :=
            fun x hx => List.mem_takeWhile_imp hx
          have hallns : ∀ x ∈ (c :: rest).takeWhile pyIsWordChar,
              pyIsSpace x = false :=
            fun x hx => word_not_space (hall x hx)
          have hne : (c :: rest).takeWhile pyIsWordChar ≠ [] := by
            rw [List.takeWhile_cons, if_pos hw]
            simp
          have htailhead : ∀ e,
              ((c :: rest).dropWhile pyIsWordChar).head? = some e →
              pyIsWordChar e = false := by
            intro e he
            have h0 := List.head?_dropWhile_not pyIsWordChar (c :: rest)
            rw [he] at h0
            exact h0
          have hlensum : ((c :: rest).takeWhile pyIsWordChar).length +
              ((c :: rest).dropWhile pyIsWordChar).length =
              (c :: rest).length := by
            have h := congrArg List.length hrun
            rw [List.length_append] at h
            exact h
          have hdlt : ((c :: rest).dropWhile pyIsWordChar).length <
              (c :: rest).length := dropWhile_length_lt hw
          have hstep := collapseSpaces_nonspace_prefix
            ((c :: rest).takeWhile pyIsWordChar)
            ((c :: rest).dropWhile pyIsWordChar) (n + 1) hallns
            (by omega)
          have hcollhead := collapseSpaces_head_not_word
            (n + 1 - ((c :: rest).takeWhile pyIsWordChar).length)
            ((c :: rest).dropWhile pyIsWordChar) htailhead
          calc wordRuns (collapseSpaces (n + 1) (c :: rest))
              = wordRuns (collapseSpaces (n + 1)
                  ((c :: rest).takeWhile pyIsWordChar ++
                    (c :: rest).dropWhile pyIsWordChar)) := by rw [hrun]
            _ = wordRuns ((c :: rest).takeWhile pyIsWordChar ++
                  collapseSpaces (n + 1 - ((c :: rest).takeWhile
                    pyIsWordChar).length)
                    ((c :: rest).dropWhile pyIsWordChar)) := by rw [hstep]
            _ = (c :: rest).takeWhile pyIsWordChar ::
                  wordRuns (collapseSpaces (n + 1 - ((c :: rest).takeWhile
                    pyIsWordChar).length)
                    ((c :: rest).dropWhile pyIsWordChar)) :=
                wordRuns_run_append hne hall hcollhead
            _ = (c :: rest).takeWhile pyIsWordChar ::
                  wordRuns ((c :: rest).dropWhile pyIsWordChar) := by
                rw [ihN _ (by omega) _ (by omega)]
            _ = wordRuns (c :: rest) := (wordRuns_cons_word hw).symm
        · rw [collapseSpaces]
          by_cases hd : pyIsSpace c
          · simp only [hd, if_true]
            have hdl : (rest.dropWhile pyIsSpace).length ≤ rest.length :=
              (List.dropWhile_sublist pyIsSpace).length_le
            rw [wordRuns_cons_not_word (by decide),
              wordRuns_cons_not_word hw,
              ihN _ (by simp at hb; omega) _ (by simp at hf; omega),
              wordRuns_dropWhile_space]
          · simp only [hd, Bool.false_eq_true, if_false]
            rw [wordRuns_cons_not_word hw, wordRuns_cons_not_word hw,
              ihN _ (by simp at hb; omega) _ (by simp at hf; omega)]

lemma wordRuns_nil : wordRuns [] = [] := by
  rw [wordRuns]

lemma map_id_of_fixed {f : Char → Char} : ∀ (l : List Char),
    (∀ c ∈ l, f c = c) → l.map f = l := by
  intro l
  induction l with
  | nil => intro _; rfl
  | cons c rest ih =>
    intro h
    rw [List.map_cons, h c (List.mem_cons_self _ _),
      ih (fun d hd => h d (List.mem_cons_of_mem _ hd))]

lemma removeWordToken_head_not_word (w : List Char) (fuel : Nat)
    (X : List Char)
    (hX : ∀ e, X.head? = some e → pyIsWordChar e = false) :
    ∀ e, (removeWordToken w fuel X).head? = some e →
      pyIsWordChar e = false := by
  intro e he
  match fuel, X with
  | 0, _ => simp [removeWordToken] at he
  | _ + 1, [] => simp [removeWordToken] at he
  | n + 1, d :: rest =>
    have hd : pyIsWordChar d = false := hX d rfl
    rw [removeWordToken] at he
    simp only [hd, Bool.false_eq_true, if_false, List.head?_cons,
      Option.some_inj] at he
    subst he
    exact hX _ rfl

lemma wordRuns_removeWordToken (w : List Char) : ∀ (bound : Nat)
    (cs : List Char), cs.length ≤ bound → ∀ (fuel : Nat),
    cs.length ≤ fuel →
    wordRuns (removeWordToken w fuel cs) =
      (wordRuns cs).filter (fun r => r ≠ w) := by
  intro bound
  induction bound with
  | zero =>
    intro cs hb fuel hf
    have : cs = [] := List.length_eq_zero.mp (Nat.le_zero.mp hb)
    subst this
    cases fuel <;> simp [removeWordToken, wordRuns_nil]
  | succ N ihN =>
    intro cs hb fuel hf
    match cs with
    | [] => cases fuel <;> simp [removeWordToken, wordRuns_nil]
    | c :: rest =>
      match fuel with
      | 0 => simp at hf
      | n + 1 =>
        by_cases hw : pyIsWordChar c
        · have hrun : (c :: rest).takeWhile pyIsWordChar ++
              (c :: rest).dropWhile pyIsWordChar = c :: rest :=
            List.takeWhile_append_dropWhile _ _
          have hall : ∀ x ∈ (c :: rest).takeWhile pyIsWordChar,
              pyIsWordChar x = true :=
            fun x hx => List.mem_takeWhile_imp hx
          have hne : (c :: rest).takeWhile pyIsWordChar ≠ [] := by
            rw [List.takeWhile_cons, if_pos hw]
            simp
          have htklen : 0 < ((c :: rest).takeWhile pyIsWordChar).length :=
            List.length_pos.mpr hne
          have htailhead : ∀ e,
              ((c :: rest).dropWhile pyIsWordChar).head? = some e →
              pyIsWordChar e = false := by
            intro e he
            have h0 := List.head?_dropWhile_not pyIsWordChar (c :: rest)
            rw [he] at h0
            exact h0
          have hlensum : ((c :: rest).takeWhile pyIsWordChar).length +
              ((c :: rest).dropWhile pyIsWordChar).length =
              (c :: rest).length := by
            have h := congrArg List.length hrun
            rw [List.length_append] at h
            exact h
          have hdlt : ((c :: rest).dropWhile pyIsWordChar).length <
              (c :: rest).length := dropWhile_length_lt hw
          have hrec := ihN ((c :: rest).dropWhile pyIsWordChar)
            (by omega) n (by omega)
          rw [removeWordToken]
          simp only [hw, if_true]
          rw [wordRuns_cons_word hw, List.filter_cons]
          by_cases hweq : (c :: rest).takeWhile pyIsWordChar = w
          · rw [if_pos hweq]
            simp only [hweq, ne_eq, not_true_eq_false, decide_False,
              Bool.false_eq_true, if_false]
            rw [List.singleton_append,
              wordRuns_cons_not_word (by decide), hrec]
          · rw [if_neg hweq]
            simp only [ne_eq, hweq, not_false_eq_true, decide_True,
              if_true]
            rw [wordRuns_run_append hne hall
              (removeWordToken_head_not_word w n _ htailhead), hrec]
        · rw [removeWordToken]
          simp only [hw, Bool.false_eq_true, if_false]
          rw [wordRuns_cons_not_word hw, wordRuns_cons_not_word hw,
            ihN rest (by simp at hb; omega) n (by simp at hf; omega)]

lemma removeWordToken_id (w : List Char) : ∀ (bound : Nat)
    (cs : List Char), cs.length ≤ bound → w ∉ wordRuns cs →
    ∀ (fuel : Nat), cs.length ≤ fuel →
    removeWordToken w fuel cs = cs := by
  intro bound
  induction bound with
  | zero =>
    intro cs hb _ fuel _
    have : cs = [] := List.length_eq_zero.mp (Nat.le_zero.mp hb)
    subst this
    cases fuel <;> rfl
  | succ N ihN =>
    intro cs hb hmem fuel hf
    match cs with
    | [] => cases fuel <;> rfl
    | c :: rest =>
      match fuel with
      | 0 => simp at hf
      | n + 1 =>
        by_cases hw : pyIsWordChar c
        · have hrun : (c :: rest).takeWhile pyIsWordChar ++
              (c :: rest).dropWhile pyIsWordChar = c :: rest :=
            List.takeWhile_append_dropWhile _ _
          have hne : (c :: rest).takeWhile pyIsWordChar ≠ [] := by
            rw [List.takeWhile_cons, if_pos hw]
            simp
          have htklen : 0 < ((c :: rest).takeWhile pyIsWordChar).length :=
            List.length_pos.mpr hne
          have hlensum : ((c :: rest).takeWhile pyIsWordChar).length +
              ((c :: rest).dropWhile pyIsWordChar).length =
              (c :: rest).length := by
            have h := congrArg List.length hrun
            rw [List.length_append] at h
            exact h
          have hdlt : ((c :: rest).dropWhile pyIsWordChar).length <
              (c :: rest).length := dropWhile_length_lt hw
          rw [wordRuns_cons_word hw, List.mem_cons, not_or] at hmem
          rw [removeWordToken]
          simp only [hw, if_true]
          rw [if_neg (fun he => hmem.1 he.symm),
            ihN _ (by omega) hmem.2 n (by omega), hrun]
        · rw [wordRuns_cons_not_word hw] at hmem
          rw [removeWordToken]
          simp only [hw, Bool.false_eq_true, if_false]
          rw [ihN rest (by simp at hb; omega) hmem n
            (by simp at hf; omega)]

lemma removeParens_id : ∀ (cs : List Char), '(' ∉ cs →
    ∀ (fuel : Nat), cs.length ≤ fuel → removeParens fuel cs = cs := by
  intro cs
  induction cs with
  | nil => intro _ fuel _; cases fuel <;> rfl
  | cons c rest ih =>
    intro hmem fuel hf
    rw [List.mem_cons, not_or] at hmem
    match fuel with
    | 0 => simp at hf
    | n + 1 =>
      rw [removeParens, if_neg (fun he => hmem.1 he.symm),
        ih hmem.2 n (by simp at hf; omega)]

lemma removeColon_id : ∀ (cs : List Char), ':' ∉ cs →
    removeColon cs = cs := by
  intro cs
  induction cs with
  | nil => intro _; rfl
  | cons c rest ih =>
    intro hmem
    rw [List.mem_cons, not_or] at hmem
    rw [removeColon, if_neg (fun he => hmem.1 he.symm), ih hmem.2]

lemma removeAllCI_id (pat : List Char) : ∀ (cs : List Char),
    ciSub pat cs = false → ∀ (fuel : Nat), cs.length ≤ fuel →
    removeAllCI pat fuel cs = cs := by
  intro cs
  induction cs with
  | nil => intro _ fuel _; cases fuel <;> rfl
  | cons c rest ih =>
    intro hsub fuel hf
    rw [ciSub, Bool.or_eq_false_iff] at hsub
    match fuel with
    | 0 => simp at hf
    | n + 1 =>
      rw [removeAllCI, if_neg (by rw [hsub.1]; exact Bool.false_ne_true),
        ih hsub.2 n (by simp at hf; omega)]

lemma collapseSpaces_id : ∀ (cs : List Char),
    (∀ c ∈ cs, pyIsSpace c = true → c = ' ') →
    List.Chain' (fun x y => ¬(pyIsSpace x = true ∧ pyIsSpace y = true))
      cs →
    ∀ (fuel : Nat), cs.length ≤ fuel → collapseSpaces fuel cs = cs := by
  intro cs
  induction cs with
  | nil => intro _ _ fuel _; cases fuel <;> rfl
  | cons c rest ih =>
    intro hall hch fuel hf
    rw [List.chain'_cons'] at hch
    match fuel with
    | 0 => simp at hf
    | n + 1 =>
      rw [collapseSpaces]
      by_cases hd : pyIsSpace c
      · simp only [hd, if_true]
        have hdw : rest.dropWhile pyIsSpace = rest := by
          apply dropWhile_eq_self_of_head
          intro e he
          have := hch.1 e he
          cases hse : pyIsSpace e
          · rfl
          · exact absurd ⟨hd, hse⟩ this
        rw [hdw, ih (fun d hd' hs => hall d (List.mem_cons_of_mem _ hd') hs)
          hch.2 n (by simp at hf; omega),
          hall c (List.mem_cons_self _ _) hd]
      · simp only [hd, Bool.false_eq_true, if_false]
        rw [ih (fun d hd' hs => hall d (List.mem_cons_of_mem _ hd') hs)
          hch.2 n (by simp at hf; omega)]

lemma punctToSpace_class (c : Char) :
    pyIsWordChar (punctToSpace c) = true ∨
      pyIsSpace (punctToSpace c) = true := by
  unfold punctToSpace
  by_cases h : (pyIsWordChar c || pyIsSpace c) = true
  · rw [if_pos h]
    exact (Bool.or_eq_true _ _).mp h
  · rw [if_neg h]
    exact Or.inr (by decide)

lemma punctToSpace_eq_or (c : Char) :
    punctToSpace c = c ∨ punctToSpace c = ' ' := by
  unfold punctToSpace
  by_cases h : (pyIsWordChar c || pyIsSpace c) = true
  · exact Or.inl (if_pos h)
  · exact Or.inr (if_neg h)

lemma punctToSpace_id_of_class {c : Char}
    (h : pyIsWordChar c = true ∨ c = ' ') : punctToSpace c = c := by
  unfold punctToSpace
  rcases h with h | h
  · rw [if_pos (by rw [h]; rfl)]
  · subst h
    rfl

lemma normalize_title_eq (s : String) :
    normalize_title s = String.mk (pyStrip (normC6 s)) := rfl

lemma foldRemoveAllCI_sublist : ∀ (l : List String) (acc : List Char),
    (l.foldl (fun acc p => removeAllCI p.toList acc.length acc)
      acc).Sublist acc := by
  intro l
  induction l with
  | nil => intro acc; exact List.Sublist.refl _
  | cons p l' ih =>
    intro acc
    rw [List.foldl_cons]
    exact List.Sublist.trans (ih _) (removeAllCI_sublist _ _ _)

lemma foldRemoveAllCI_id : ∀ (l : List String) (acc : List Char),
    (∀ p ∈ l, ciSub p.toList acc = false) →
    l.foldl (fun acc p => removeAllCI p.toList acc.length acc) acc
      = acc := by
  intro l
  induction l with
  | nil => intro acc _; rfl
  | cons p l' ih =>
    intro acc h
    rw [List.foldl_cons,
      removeAllCI_id _ _ (h p (List.mem_cons_self _ _)) _ le_rfl,
      ih acc (fun q hq => h q (List.mem_cons_of_mem _ hq))]

lemma mem_foldRW : ∀ (l : List String) (acc : List Char),
    ∀ c ∈ l.foldl (fun acc w => removeWordToken w.toList acc.length acc)
      acc, c ∈ acc ∨ c = ' ' := by
  intro l
  induction l with
  | nil => intro acc c hc; exact Or.inl hc
  | cons w l' ih =>
    intro acc c hc
    rw [List.foldl_cons] at hc
    rcases ih _ c hc with h | h
    · rcases mem_removeWordToken _ _ _ c h with h' | h'
      · exact Or.inl h'
      · exact Or.inr h'
    · exact Or.inr h

lemma wordRuns_foldRW_subset : ∀ (l : List String) (acc : List Char),
    ∀ r ∈ wordRuns (l.foldl
      (fun acc w => removeWordToken w.toList acc.length acc) acc),
      r ∈ wordRuns acc := by
  intro l
  induction l with
  | nil => intro acc r hr; exact hr
  | cons w l' ih =>
    intro acc r hr
    rw [List.foldl_cons] at hr
    have h1 := ih _ r hr
    rw [wordRuns_removeWordToken _ acc.length acc le_rfl _ le_rfl] at h1
    exact (List.mem_filter.mp h1).1

lemma foldRW_removes : ∀ (l : List String) (acc : List Char)
    (w : String), w ∈ l →
    w.toList ∉ wordRuns (l.foldl
      (fun acc w => removeWordToken w.toList acc.length acc) acc) := by
  intro l
  induction l with
  | nil => intro acc w hw; simp at hw
  | cons p l' ih =>
    intro acc w hw
    rw [List.mem_cons] at hw
    rcases hw with rfl | hw
    · intro hmem
      rw [List.foldl_cons] at hmem
      have h1 := wordRuns_foldRW_subset l' _ _ hmem
      rw [wordRuns_removeWordToken _ acc.length acc le_rfl _ le_rfl]
        at h1
      have h2 := (List.mem_filter.mp h1).2
      simp at h2
    · intro hmem
      rw [List.foldl_cons] at hmem
      exact ih _ w hw hmem

lemma foldRW_id : ∀ (l : List String) (acc : List Char),
    (∀ w ∈ l, w.toList ∉ wordRuns acc) →
    l.foldl (fun acc w => removeWordToken w.toList acc.length acc) acc
      = acc := by
  intro l
  induction l with
  | nil => intro acc _; rfl
  | cons w l' ih =>
    intro acc h
    rw [List.foldl_cons,
      removeWordToken_id _ acc.length acc le_rfl
        (h w (List.mem_cons_self _ _)) _ le_rfl,
      ih acc (fun q hq => h q (List.mem_cons_of_mem _ hq))]

lemma toList_mk (l : List Char) : (String.mk l).toList = l := rfl

lemma normalize_title_toList (s : String) :
    (normalize_title s).toList = pyStrip (normC6 s) := by
  simp only [normalize_title, normC6, normC5, normC4, normC3, normC2,
    normC1, normC0]
  rw [toList_mk]

lemma normC3_sublist (s : String) : (normC3 s).Sublist (normC0 s) :=
  List.Sublist.trans (foldRemoveAllCI_sublist _ _)
    (List.Sublist.trans (removeColon_sublist _)
      (removeParens_sublist _ _))

lemma normC0_lower (s : String) : ∀ c ∈ normC0 s, c.toLower = c := by
  intro c hc
  rcases List.mem_map.mp hc with ⟨d, _, rfl⟩
  exact toLower_idem d

lemma normC4_class (s : String) : ∀ c ∈ normC4 s,
    c.toLower = c ∧ (pyIsWordChar c = true ∨ pyIsSpace c = true) := by
  intro c hc
  rcases List.mem_map.mp hc with ⟨d, hd, rfl⟩
  refine ⟨?_, punctToSpace_class d⟩
  rcases punctToSpace_eq_or d with h | h
  · rw [h]
    exact normC0_lower s d ((normC3_sublist s).mem hd)
  · rw [h]
    decide

lemma normC5_class (s : String) : ∀ c ∈ normC5 s,
    c.toLower = c ∧ (pyIsWordChar c = true ∨ pyIsSpace c = true) := by
  intro c hc
  rcases mem_foldRW _ _ c hc with h | h
  · exact normC4_class s c h
  · subst h
    exact ⟨by decide, Or.inr (by decide)⟩

lemma normT_lower (s : String) :
    ∀ c ∈ (normalize_title s).toList, c.toLower = c := by
  intro c hc
  rw [normalize_title_toList] at hc
  have h1 := (pyStrip_sublist _).mem hc
  rcases mem_collapseSpaces _ _ c h1 with ⟨h2, _⟩ | h2
  · exact (normC5_class s c h2).1
  · subst h2
    decide

lemma normT_class (s : String) :
    ∀ c ∈ (normalize_title s).toList,
      pyIsWordChar c = true ∨ c = ' ' := by
  intro c hc
  rw [normalize_title_toList] at hc
  have h1 := (pyStrip_sublist _).mem hc
  rcases mem_collapseSpaces _ _ c h1 with ⟨h2, h3⟩ | h2
  · rcases (normC5_class s c h2).2 with h4 | h4
    · exact Or.inl h4
    · rw [h4] at h3
      cases h3
  · exact Or.inr h2

def chainNS (l : List Char) : Prop :=
  List.Chain' (fun x y => ¬(pyIsSpace x = true ∧ pyIsSpace y = true)) l

lemma chainNS_iff (l : List Char) : chainNS l ↔
    List.Chain' (fun x y => ¬(pyIsSpace x = true ∧ pyIsSpace y = true))
      l :=
  Iff.rfl

attribute [irreducible] chainNS

lemma collapseSpaces_chainNS (fuel : Nat) (cs : List Char) :
    chainNS (collapseSpaces fuel cs) :=
  (chainNS_iff _).mpr (collapseSpaces_chain fuel cs)

lemma chainNS_pyStrip (X : List Char) (h : chainNS X) :
    chainNS (pyStrip X) := by
  rw [chainNS_iff] at h ⊢
  unfold pyStrip
  refine List.Chain'.prefix ?_ (List.rdropWhile_prefix pyIsSpace _)
  refine List.Chain'.suffix ?_ (List.dropWhile_suffix pyIsSpace)
  exact h

lemma collapseSpaces_id_of_chainNS (cs : List Char)
    (hall : ∀ c ∈ cs, pyIsSpace c = true → c = ' ') (hch : chainNS cs)
    (fuel : Nat) (hf : cs.length ≤ fuel) :
    collapseSpaces fuel cs = cs :=
  collapseSpaces_id cs hall ((chainNS_iff cs).mp hch) fuel hf

lemma normT_chain (s : String) :
    chainNS ((normalize_title s).toList) := by
  rw [normalize_title_toList]
  refine chainNS_pyStrip _ ?_
  rw [normC6]
  exact collapseSpaces_chainNS _ _

lemma normT_runs (s : String) :
    wordRuns (normalize_title s).toList = wordRuns (normC5 s) := by
  rw [normalize_title_toList, wordRuns_pyStrip, normC6]
  exact wordRuns_collapseSpaces (normC5 s).length _ le_rfl _ le_rfl

lemma normT_stopfree (s : String) : ∀ w ∈ stopwords,
    w.toList ∉ wordRuns (normalize_title s).toList := by
  intro w hw
  rw [normT_runs, normC5]
  exact foldRW_removes _ _ w hw

lemma normT_drop (s : String) :
    ((normalize_title s).toList).dropWhile pyIsSpace =
      (normalize_title s).toList := by
  rw [normalize_title_toList]
  exact pyStrip_dropWhile_self _

lemma normT_rdrop (s : String) :
    ((normalize_title s).toList).rdropWhile pyIsSpace =
      (normalize_title s).toList := by
  rw [normalize_title_toList]
  exact pyStrip_rdropWhile_self _

lemma mk_toList (x : String) : String.mk x.toList = x := rfl

/-- C5: the title normalizer `normalize_title` is not idempotent in
general (see `normalize_title_not_idempotent`), but it is idempotent
on every input whose normalized form contains no edition-marker
phrase: if no pattern of `edition_patterns` occurs (case-insensitively)
in `normalize_title s`, then `normalize_title (normalize_title s) =
normalize_title s`. -/
theorem normalize_title_idempotent_of_no_marker (s : String)
    (h : ∀ p ∈ editionPatterns,
      ciSub p.toList (normalize_title s).toList = false) :
    normalize_title (normalize_title s) = normalize_title s := by
  have hpar : '(' ∉ (normalize_title s).toList := by
    intro hc
    rcases normT_class s _ hc with h1 | h1
    · exact absurd h1 (by decide)
    · exact absurd h1 (by decide)
  have hcol : ':' ∉ (normalize_title s).toList := by
    intro hc
    rcases normT_class s _ hc with h1 | h1
    · exact absurd h1 (by decide)
    · exact absurd h1 (by decide)
  have hpunct : ∀ c ∈ (normalize_title s).toList, punctToSpace c = c :=
    fun c hc => punctToSpace_id_of_class (normT_class s c hc)
  have hsp : ∀ c ∈ (normalize_title s).toList,
      pyIsSpace c = true → c = ' ' := by
    intro c hc hs
    rcases normT_class s c hc with h1 | h1
    · rw [word_not_space h1] at hs
      cases hs
    · exact h1
  have h0 : normC0 (normalize_title s) = (normalize_title s).toList := by
    rw [normC0]
    exact map_id_of_fixed _ (normT_lower s)
  have h1 : normC1 (normalize_title s) = (normalize_title s).toList := by
    rw [normC1, h0]
    exact removeParens_id _ hpar _ le_rfl
  have h2 : normC2 (normalize_title s) = (normalize_title s).toList := by
    rw [normC2, h1]
    exact removeColon_id _ hcol
  have h3 : normC3 (normalize_title s) = (normalize_title s).toList := by
    rw [normC3, h2]
    exact foldRemoveAllCI_id _ _ h
  have h4 : normC4 (normalize_title s) = (normalize_title s).toList := by
    rw [normC4, h3]
    exact map_id_of_fixed _ hpunct
  have h5 : normC5 (normalize_title s) = (normalize_title s).toList := by
    rw [normC5, h4]
    exact foldRW_id _ _ (normT_stopfree s)
  have h6 : normC6 (normalize_title s) = (normalize_title s).toList := by
    rw [normC6, h5]
    exact collapseSpaces_id_of_chainNS _ hsp (normT_chain s) _ le_rfl
  have hstrip : pyStrip ((normalize_title s).toList) =
      (normalize_title s).toList := by
    unfold pyStrip
    rw [normT_drop s, normT_rdrop s]
  rw [normalize_title_eq (normalize_title s), h6, hstrip]
  exact mk_toList _

/-- Witness for C5 amended: a concrete title whose normalized form has
no edition marker, on which normalization is idempotent. -/
theorem normalize_title_idempotent_witness :
    (∀ p ∈ editionPatterns,
      ciSub p.toList (normalize_title "Dune (1965)").toList = false) ∧
    normalize_title (normalize_title "Dune (1965)") =
      normalize_title "Dune (1965)" :=
  ⟨by decide, normalize_title_idempotent_of_no_marker "Dune (1965)"
    (by decide)⟩

/-! ## Deduplication pipelines
`cleaned-book-data/book-deduplication.py` (`deduplicate_books`,
`process_letter_group`) and
`cleaned-book-data/enhanced-book-deduplication.py` (`clean_title`,
`title_similarity`, `deduplicate_books`).  Rows are indexed by
position, matching the default `RangeIndex` of `pd.read_csv`. -/

/-- Keep the first occurrence of each element (`pd.unique` order). -/
def firstUniq {α : Type} [DecidableEq α] (l : List α) : List α :=
  l.foldl (fun acc x => if x ∈ acc then acc else acc ++ [x]) []

/-- Insertion into a code-point-sorted character list. -/
def insertChar (c : Char) : List Char → List Char
  | [] => [c]
  | d :: rest =>
    if c.toNat ≤ d.toNat then c :: d :: rest else d :: insertChar c rest

/-- `sorted(...)` on characters (code-point order). -/
def sortChars (l : List Char) : List Char := l.foldr insertChar []

/-- Lexicographic code-point `<=` on strings (Python string order). -/
def listLe : List Char → List Char → Bool
  | [], _ => true
  | _ :: _, [] => false
  | a :: as, b :: bs =>
    if a.toNat < b.toNat then true
    else if b.toNat < a.toNat then false
    else listLe as bs

/-- Insertion into a lexicographically sorted string list. -/
def insertStr (s : String) : List String → List String
  | [] => [s]
  | t :: rest =>
    if listLe s.toList t.toList then s :: t :: rest
    else t :: insertStr s rest

/-- `sorted(...)` on strings. -/
def sortStrs (l : List String) : List String := l.foldr insertStr []

/-- A row of the book CSV as `book-deduplication.py` uses it. -/
structure BRow where
  title_without_series : String
  ratings_count : Int

/-- `df['normalized_title']` for row `i`. -/
def normOf (df : List BRow) (i : Nat) : String :=
  normalize_title ((df.getD i ⟨"", 0⟩).title_without_series)

/-- All row indices whose normalized title equals `t`
(`df[df['normalized_title'] == norm_title].index.tolist()`). -/
def titleRows (df : List BRow) (t : String) : List Nat :=
  (List.range df.length).filter (fun i => normOf df i = t)

/-- `title_counts[t]`. -/
def countTitle (df : List BRow) (t : String) : Nat :=
  (titleRows df t).length

/-- `exact_duplicate_titles`: normalized titles occurring more than
once (`value_counts` iterates each distinct title once; the order of
this list is unused by any theorem below). -/
def exactTitles (df : List BRow) : List String :=
  (firstUniq ((List.range df.length).map (fun i => normOf df i))).filter
    (fun t => 1 < countTitle df t)

/-- `exact_duplicate_groups`. -/
def exactGroups (df : List BRow) : List (List Nat) :=
  (exactTitles df).map (fun t => titleRows df t)

/-- `df['first_letter']` for row `i` (`none` encodes `''`). -/
def flOf (df : List BRow) (i : Nat) : Option Char :=
  (normOf df i).toList.head?

/-- `first_letters`: sorted distinct non-empty first letters. -/
def bletters (df : List BRow) : List Char :=
  sortChars (firstUniq ((List.range df.length).filterMap (flOf df)))

/-- Rows of a letter group, in row order. -/
def letterRows (df : List BRow) (l : Char) : List Nat :=
  (List.range df.length).filter (fun i => flOf df i = some l)

/-- Union of the exact duplicate groups (`exact_indices`). -/
def exactIndices (df : List BRow) : List Nat :=
  (exactGroups df).flatten

/-- The letter group with exact-duplicate rows removed
(`letter_df[~letter_df.index.isin(exact_indices)]`). -/
def letterRowsF (df : List BRow) (l : Char) : List Nat :=
  (letterRows df l).filter (fun i => ¬ (exactIndices df).contains i)

/-- The greedy grouping loop of `process_letter_group`: take the first
unused row, collect every later row that is not already grouped and is
similar enough, and keep the group when it has two or more members. -/
def pgroups1 (df : List BRow) (θ : ℚ) :
    List Nat → List (List Nat) → List (List Nat)
  | [], acc => acc
  | i :: rest, acc =>
    if acc.any (fun g => g.contains i) then pgroups1 df θ rest acc
    else
      let cur := i :: rest.filter (fun j =>
        !(acc.any (fun g => g.contains j)) &&
        decide (θ ≤ title_similarity (normOf df i) (normOf df j)))
      if 1 < cur.length then pgroups1 df θ rest (acc ++ [cur])
      else pgroups1 df θ rest acc

/-- `similar_duplicate_groups`: letter groups are prepared (skipping
singleton groups before and after removing exact-duplicate rows) and
each is processed by `process_letter_group`. -/
def similarGroups (df : List BRow) (θ : ℚ) : List (List Nat) :=
  (bletters df).foldl (fun acc l =>
    if (letterRows df l).length ≤ 1 then acc
    else if (letterRowsF df l).length ≤ 1 then acc
    else acc ++ pgroups1 df θ (letterRowsF df l) []) []

/-- `all_duplicate_groups = exact_duplicate_groups +
similar_duplicate_groups`. -/
def allGroups (df : List BRow) (θ : ℚ) : List (List Nat) :=
  exactGroups df ++ similarGroups df θ

/-- `ratings.idxmax()`: first index of the maximal ratings count. -/
def argmaxAux (df : List BRow) : Nat → List Nat → Nat
  | best, [] => best
  | best, j :: rest =>
    if (df.getD best ⟨"", 0⟩).ratings_count <
        (df.getD j ⟨"", 0⟩).ratings_count then argmaxAux df j rest
    else argmaxAux df best rest

/-- `idxmax` over a duplicate group (groups are never empty). -/
def argmaxRatings (df : List BRow) : List Nat → Nat
  | [] => 0
  | i :: rest => argmaxAux df i rest

/-- `indices_to_keep` with `prefer_highest_ratings=True`: all
non-duplicate rows plus, per duplicate group, the row with the highest
ratings count. -/
def keepSet (df : List BRow) (θ : ℚ) : Finset Nat :=
  ((List.range df.length).filter
    (fun i => ¬ (allGroups df θ).flatten.contains i)).toFinset ∪
  ((allGroups df θ).map (fun g => argmaxRatings df g)).toFinset

/-- A row of the CSV as `enhanced-book-deduplication.py` uses it. -/
structure ERow where
  title_without_series : String
  authors : String

/-- The `edition_patterns` list of `enhanced-book-deduplication.py`. -/
def editionPatternsE : List String :=
  ["illustrated edition", "audiobook", "kindle edition", "paperback",
    "hardcover", "ebook", "special edition", "collector's edition",
    "unabridged", "abridged", "anniversary edition", "revised edition"]

/-- `clean_title`: drop parenthesised spans and colon suffixes, drop
edition markers case-insensitively, map punctuation to spaces,
collapse whitespace, then strip and lowercase. -/
def clean_title (s : String) : String :=
  let c1 := removeParens s.toList.length s.toList
  let c2 := removeColon c1
  let c3 := editionPatternsE.foldl
    (fun acc p => removeAllCI p.toList acc.length acc) c2
  let c4 := c3.map punctToSpace
  let c5 := collapseSpaces c4.length c4
  String.mk ((pyStrip c5).map Char.toLower)

/-- `title_similarity` of the enhanced script:
`SequenceMatcher(None, t1, t2).ratio() * 100`, `0` on empty input. -/
def title_similarityE (t1 t2 : String) : ℚ :=
  if t1 = "" ∨ t2 = "" then 0 else ratioSM t1 t2 * 100

/-- `bool(row1['author_ids'] & row2['author_ids'])`. -/
def authorsMatch (a1 a2 : List String) : Bool :=
  a1.any (fun x => a2.contains x)

/-- `df['clean_title']` for row `i`. -/
def cleanOf (df : List ERow) (i : Nat) : String :=
  clean_title ((df.getD i ⟨"", ""⟩).title_without_series)

/-- `df['author_ids']` for row `i`. -/
def authorsOf (df : List ERow) (i : Nat) : List String :=
  scanAuthorIds ((df.getD i ⟨"", ""⟩).authors)

/-- `df['title_prefix']`: first two characters when the clean title
has at least two. -/
def prefixOf (df : List ERow) (i : Nat) : String :=
  if 2 ≤ (cleanOf df i).toList.length then
    String.mk ((cleanOf df i).toList.take 2)
  else ""

/-- Sorted distinct non-empty prefixes. -/
def eprefixes (df : List ERow) : List String :=
  sortStrs (firstUniq
    (((List.range df.length).map (prefixOf df)).filter (fun p => p ≠ "")))

/-- Rows of a prefix group, in row order. -/
def eprefixRows (df : List ERow) (p : String) : List Nat :=
  (List.range df.length).filter (fun i => prefixOf df i = p)

/-- The greedy grouping loop of the enhanced `deduplicate_books`: the
first unused row collects every later same-prefix row with a shared
author and similar-enough title; unlike `process_letter_group`, the
inner loop has no already-grouped check on the later row. -/
def egroups1 (df : List ERow) (θ : ℚ) :
    List Nat → List (List Nat) → List (List Nat)
  | [], acc => acc
  | i :: rest, acc =>
    if acc.any (fun g => g.contains i) then egroups1 df θ rest acc
    else
      let cur := i :: rest.filter (fun j =>
        authorsMatch (authorsOf df i) (authorsOf df j) &&
        decide (θ ≤ title_similarityE (cleanOf df i) (cleanOf df j)))
      if 1 < cur.length then egroups1 df θ rest (acc ++ [cur])
      else egroups1 df θ rest acc

/-- `duplicate_groups` of the enhanced `deduplicate_books`. -/
def edupGroups (df : List ERow) (θ : ℚ) : List (List Nat) :=
  (eprefixes df).foldl (fun acc p =>
    if (eprefixRows df p).length ≤ 1 then acc
    else acc ++ egroups1 df θ (eprefixRows df p) []) []

/-- Two clusters share no row index. -/
def disjGroups (g₁ g₂ : List Nat) : Prop := ∀ i, i ∈ g₁ → i ∈ g₂ → False

lemma mem_firstUniqAux {α : Type} [DecidableEq α] : ∀ (l : List α)
    (acc : List α) (x : α),
    x ∈ l.foldl (fun acc x => if x ∈ acc then acc else acc ++ [x]) acc →
    x ∈ acc ∨ x ∈ l := by
  intro l
  induction l with
  | nil => intro acc x hx; exact Or.inl hx
  | cons y rest ih =>
    intro acc x hx
    rw [List.foldl_cons] at hx
    rcases ih _ x hx with h | h
    · by_cases hy : y ∈ acc
      · rw [if_pos hy] at h
        exact Or.inl h
      · rw [if_neg hy] at h
        rcases List.mem_append.mp h with h' | h'
        · exact Or.inl h'
        · rw [List.mem_singleton] at h'
          exact Or.inr (h' ▸ List.mem_cons_self _ _)
    · exact Or.inr (List.mem_cons_of_mem _ h)

lemma firstUniqAux_mem {α : Type} [DecidableEq α] : ∀ (l : List α)
    (acc : List α) (x : α), x ∈ acc ∨ x ∈ l →
    x ∈ l.foldl (fun acc x => if x ∈ acc then acc else acc ++ [x]) acc := by
  intro l
  induction l with
  | nil =>
    intro acc x hx
    rcases hx with h | h
    · exact h
    · exact absurd h (by simp)
  | cons y rest ih =>
    intro acc x hx
    rw [List.foldl_cons]
    have hsub : ∀ z ∈ acc, z ∈ (if y ∈ acc then acc else acc ++ [y]) := by
      intro z hz
      by_cases hy : y ∈ acc
      · rw [if_pos hy]; exact hz
      · rw [if_neg hy]; exact List.mem_append.mpr (Or.inl hz)
    have hy' : y ∈ (if y ∈ acc then acc else acc ++ [y]) := by
      by_cases hy : y ∈ acc
      · rw [if_pos hy]; exact hy
      · rw [if_neg hy]; exact List.mem_append.mpr (Or.inr (by simp))
    rcases hx with h | h
    · exact ih _ x (Or.inl (hsub x h))
    · rcases List.mem_cons.mp h with rfl | h'
      · exact ih _ x (Or.inl hy')
      · exact ih _ x (Or.inr h')

lemma firstUniqAux_nodup {α : Type} [DecidableEq α] : ∀ (l : List α)
    (acc : List α), acc.Nodup →
    (l.foldl (fun acc x => if x ∈ acc then acc else acc ++ [x])
      acc).Nodup := by
  intro l
  induction l with
  | nil => intro acc h; exact h
  | cons y rest ih =>
    intro acc h
    rw [List.foldl_cons]
    refine ih _ ?_
    by_cases hy : y ∈ acc
    · rw [if_pos hy]; exact h
    · rw [if_neg hy]
      rw [List.nodup_append]
      exact ⟨h, List.nodup_singleton _, by
        intro a ha hb
        rw [List.mem_singleton] at hb
        exact hy (hb ▸ ha)⟩

lemma mem_firstUniq {α : Type} [DecidableEq α] (l : List α) (x : α)
    (h : x ∈ firstUniq l) : x ∈ l := by
  rcases mem_firstUniqAux l [] x h with h' | h'
  · exact absurd h' (by simp)
  · exact h'

lemma firstUniq_mem {α : Type} [DecidableEq α] (l : List α) (x : α)
    (h : x ∈ l) : x ∈ firstUniq l :=
  firstUniqAux_mem l [] x (Or.inr h)

lemma firstUniq_nodup {α : Type} [DecidableEq α] (l : List α) :
    (firstUniq l).Nodup :=
  firstUniqAux_nodup l [] List.nodup_nil

lemma mem_insertChar (c x : Char) : ∀ (l : List Char),
    x ∈ insertChar c l → x = c ∨ x ∈ l := by
  intro l
  induction l with
  | nil => intro h; simpa [insertChar] using h
  | cons d rest ih =>
    intro h
    rw [insertChar] at h
    by_cases hc : c.toNat ≤ d.toNat
    · rw [if_pos hc] at h
      rcases List.mem_cons.mp h with rfl | h'
      · exact Or.inl rfl
      · exact Or.inr h'
    · rw [if_neg hc] at h
      rcases List.mem_cons.mp h with rfl | h'
      · exact Or.inr (List.mem_cons_self _ _)
      · rcases ih h' with rfl | h''
        · exact Or.inl rfl
        · exact Or.inr (List.mem_cons_of_mem _ h'')

lemma insertChar_nodup (c : Char) : ∀ (l : List Char), l.Nodup →
    c ∉ l → (insertChar c l).Nodup := by
  intro l
  induction l with
  | nil => intro _ _; simp [insertChar]
  | cons d rest ih =>
    intro hnd hni
    rw [List.nodup_cons] at hnd
    rw [insertChar]
    by_cases hc : c.toNat ≤ d.toNat
    · rw [if_pos hc]
      exact List.nodup_cons.mpr ⟨hni, List.nodup_cons.mpr hnd⟩
    · rw [if_neg hc]
      refine List.nodup_cons.mpr ⟨?_, ih hnd.2 (fun h => hni (List.mem_cons_of_mem _ h))⟩
      intro hd
      rcases mem_insertChar c d rest hd with rfl | h'
      · exact hni (List.mem_cons_self _ _)
      · exact hnd.1 h'

lemma mem_sortChars : ∀ (l : List Char) (x : Char),
    x ∈ sortChars l → x ∈ l := by
  intro l
  induction l with
  | nil => intro x h; simpa [sortChars] using h
  | cons d r ih =>
    intro x h
    rw [sortChars, List.foldr_cons] at h
    rcases mem_insertChar d x _ h with rfl | h'
    · exact List.mem_cons_self _ _
    · exact List.mem_cons_of_mem _ (ih x h')

lemma sortChars_nodup : ∀ (l : List Char), l.Nodup → (sortChars l).Nodup := by
  intro l
  induction l with
  | nil => intro _; simp [sortChars]
  | cons c rest ih =>
    intro hnd
    rw [List.nodup_cons] at hnd
    rw [sortChars, List.foldr_cons]
    refine insertChar_nodup c _ (ih hnd.2) ?_
    intro hc
    exact hnd.1 (mem_sortChars rest c hc)

lemma bletters_nodup (df : List BRow) : (bletters df).Nodup :=
  sortChars_nodup _ (firstUniq_nodup _)

lemma pgroups1_mem (df : List BRow) (θ : ℚ) : ∀ (rows : List Nat)
    (acc : List (List Nat)) (g : List Nat), g ∈ pgroups1 df θ rows acc →
    g ∈ acc ∨ ∀ x ∈ g, x ∈ rows := by
  intro rows
  induction rows with
  | nil =>
    intro acc g hg
    rw [pgroups1] at hg
    exact Or.inl hg
  | cons i rest ih =>
    intro acc g hg
    rw [pgroups1] at hg
    by_cases h1 : (acc.any (fun g => g.contains i)) = true
    · rw [if_pos h1] at hg
      rcases ih _ _ hg with h | h
      · exact Or.inl h
      · exact Or.inr (fun x hx => List.mem_cons_of_mem _ (h x hx))
    · rw [if_neg h1] at hg
      simp only [] at hg
      by_cases h2 : 1 < (i :: rest.filter (fun j =>
          !(acc.any (fun g => g.contains j)) &&
          decide (θ ≤ title_similarity (normOf df i) (normOf df j)))).length
      · rw [if_pos h2] at hg
        rcases ih _ _ hg with h | h
        · rcases List.mem_append.mp h with h' | h'
          · exact Or.inl h'
          · right
            rw [List.mem_singleton] at h'
            subst h'
            intro x hx
            rcases List.mem_cons.mp hx with rfl | hx'
            · exact List.mem_cons_self _ _
            · exact List.mem_cons_of_mem _ (List.mem_filter.mp hx').1
        · exact Or.inr (fun x hx => List.mem_cons_of_mem _ (h x hx))
      · rw [if_neg h2] at hg
        rcases ih _ _ hg with h | h
        · exact Or.inl h
        · exact Or.inr (fun x hx => List.mem_cons_of_mem _ (h x hx))

lemma pgroups1_pairwise (df : List BRow) (θ : ℚ) : ∀ (rows : List Nat)
    (acc : List (List Nat)), List.Pairwise disjGroups acc →
    List.Pairwise disjGroups (pgroups1 df θ rows acc) := by
  intro rows
  induction rows with
  | nil =>
    intro acc hacc
    rw [pgroups1]
    exact hacc
  | cons i rest ih =>
    intro acc hacc
    rw [pgroups1]
    by_cases h1 : (acc.any (fun g => g.contains i)) = true
    · rw [if_pos h1]
      exact ih _ hacc
    · rw [if_neg h1]
      simp only []
      by_cases h2 : 1 < (i :: rest.filter (fun j =>
          !(acc.any (fun g => g.contains j)) &&
          decide (θ ≤ title_similarity (normOf df i) (normOf df j)))).length
      · rw [if_pos h2]
        refine ih _ (List.pairwise_append.mpr ⟨hacc,
          List.pairwise_singleton _ _, ?_⟩)
        intro a ha b hb
        rw [List.mem_singleton] at hb
        subst hb
        intro x hxa hxb
        rcases List.mem_cons.mp hxb with rfl | hx'
        · refine h1 ?_
          simp only [List.any_eq_true]
          exact ⟨a, ha, by simpa using hxa⟩
        · have hcond := (List.mem_filter.mp hx').2
          rw [Bool.and_eq_true, Bool.not_eq_true'] at hcond
          have : (acc.any (fun g => g.contains x)) = true := by
            simp only [List.any_eq_true]
            exact ⟨a, ha, by simpa using hxa⟩
          rw [this] at hcond
          exact absurd hcond.1 (by simp)
      · rw [if_neg h2]
        exact ih _ hacc

lemma mem_letterRowsF (df : List BRow) (l : Char) (x : Nat)
    (h : x ∈ letterRowsF df l) :
    flOf df x = some l ∧ x ∉ (exactGroups df).flatten := by
  have h1 := List.mem_filter.mp h
  have h2 := List.mem_filter.mp h1.1
  refine ⟨by simpa using h2.2, ?_⟩
  intro hx
  have := h1.2
  rw [decide_eq_true_eq] at this
  exact this (by simpa [exactIndices] using hx)

lemma similarGroups_mem (df : List BRow) (θ : ℚ) : ∀ g ∈ similarGroups df θ,
    ∃ l, ∀ x ∈ g, x ∈ letterRowsF df l := by
  have main : ∀ (ls : List Char) (acc : List (List Nat)),
      (∀ g ∈ acc, ∃ l, ∀ x ∈ g, x ∈ letterRowsF df l) →
      ∀ g ∈ ls.foldl (fun acc l =>
        if (letterRows df l).length ≤ 1 then acc
        else if (letterRowsF df l).length ≤ 1 then acc
        else acc ++ pgroups1 df θ (letterRowsF df l) []) acc,
        ∃ l, ∀ x ∈ g, x ∈ letterRowsF df l := by
    intro ls
    induction ls with
    | nil => intro acc hacc g hg; exact hacc g hg
    | cons l tail ih =>
      intro acc hacc g hg
      rw [List.foldl_cons] at hg
      refine ih _ ?_ g hg
      intro g' hg'
      by_cases hA : (letterRows df l).length ≤ 1
      · rw [if_pos hA] at hg'
        exact hacc g' hg'
      · rw [if_neg hA] at hg'
        by_cases hB : (letterRowsF df l).length ≤ 1
        · rw [if_pos hB] at hg'
          exact hacc g' hg'
        · rw [if_neg hB] at hg'
          rcases List.mem_append.mp hg' with h' | h'
          · exact hacc g' h'
          · rcases pgroups1_mem df θ _ _ _ h' with h'' | h''
            · exact absurd h'' (by simp)
            · exact ⟨l, h''⟩
  intro g hg
  exact main (bletters df) [] (by simp) g hg

lemma similarGroups_pairwise (df : List BRow) (θ : ℚ) :
    List.Pairwise disjGroups (similarGroups df θ) := by
  have main : ∀ (ls : List Char) (acc : List (List Nat)),
      ls.Nodup →
      (∀ g ∈ acc, ∀ x ∈ g, ∃ l', flOf df x = some l' ∧ l' ∉ ls) →
      List.Pairwise disjGroups acc →
      List.Pairwise disjGroups (ls.foldl (fun acc l =>
        if (letterRows df l).length ≤ 1 then acc
        else if (letterRowsF df l).length ≤ 1 then acc
        else acc ++ pgroups1 df θ (letterRowsF df l) []) acc) := by
    intro ls
    induction ls with
    | nil => intro acc _ _ hacc; exact hacc
    | cons l tail ih =>
      intro acc hnd hinv hacc
      rw [List.nodup_cons] at hnd
      rw [List.foldl_cons]
      set step := fun (acc : List (List Nat)) (l : Char) =>
        if (letterRows df l).length ≤ 1 then acc
        else if (letterRowsF df l).length ≤ 1 then acc
        else acc ++ pgroups1 df θ (letterRowsF df l) []
      have hstep : ∀ g ∈ step acc l, g ∈ acc ∨ ∀ x ∈ g, x ∈ letterRowsF df l := by
        intro g hg
        simp only [step] at hg
        by_cases hA : (letterRows df l).length ≤ 1
        · rw [if_pos hA] at hg
          exact Or.inl hg
        · rw [if_neg hA] at hg
          by_cases hB : (letterRowsF df l).length ≤ 1
          · rw [if_pos hB] at hg
            exact Or.inl hg
          · rw [if_neg hB] at hg
            rcases List.mem_append.mp hg with h' | h'
            · exact Or.inl h'
            · rcases pgroups1_mem df θ _ _ _ h' with h'' | h''
              · exact absurd h'' (by simp)
              · exact Or.inr h''
      refine ih (step acc l) hnd.2 ?_ ?_
      · intro g hg x hx
        rcases hstep g hg with h' | h'
        · rcases hinv g h' x hx with ⟨l', hl1, hl2⟩
          exact ⟨l', hl1, fun hm => hl2 (List.mem_cons_of_mem _ hm)⟩
        · exact ⟨l, (mem_letterRowsF df l x (h' x hx)).1, hnd.1⟩
      · simp only [step]
        by_cases hA : (letterRows df l).length ≤ 1
        · rw [if_pos hA]
          exact hacc
        · rw [if_neg hA]
          by_cases hB : (letterRowsF df l).length ≤ 1
          · rw [if_pos hB]
            exact hacc
          · rw [if_neg hB]
            refine List.pairwise_append.mpr ⟨hacc,
              pgroups1_pairwise df θ _ _ List.Pairwise.nil, ?_⟩
            intro a ha b hb x hxa hxb
            rcases pgroups1_mem df θ _ _ _ hb with h'' | h''
            · exact absurd h'' (by simp)
            · rcases hinv a ha x hxa with ⟨l', hl1, hl2⟩
              have := (mem_letterRowsF df l x (h'' x hxb)).1
              rw [hl1] at this
              rcases Option.some_inj.mp this with rfl
              exact hl2 (List.mem_cons_self _ _)
  exact main (bletters df) [] (bletters_nodup df) (by simp) List.Pairwise.nil

lemma mem_titleRows (df : List BRow) (t : String) (i : Nat)
    (h : i ∈ titleRows df t) : normOf df i = t := by
  have := (List.mem_filter.mp h).2
  simpa using this

lemma exactGroups_pairwise (df : List BRow) :
    List.Pairwise disjGroups (exactGroups df) := by
  rw [exactGroups, List.pairwise_map]
  have hnd : (exactTitles df).Nodup := (firstUniq_nodup _).filter _
  refine List.Pairwise.imp ?_ hnd
  intro a b hab i hi1 hi2
  exact hab ((mem_titleRows df a i hi1).symm.trans (mem_titleRows df b i hi2))

/-- C7 (amended): for the `book-deduplication.py` engine, exact and
fuzzy clusters together are pairwise disjoint. -/
theorem dedup_clusters_pairwise_disjoint (df : List BRow) (θ : ℚ) :
    List.Pairwise disjGroups (allGroups df θ) := by
  rw [allGroups]
  refine List.pairwise_append.mpr ⟨exactGroups_pairwise df,
    similarGroups_pairwise df θ, ?_⟩
  intro a ha b hb i hia hib
  rcases similarGroups_mem df θ b hb with ⟨l, hl⟩
  exact (mem_letterRowsF df l i (hl i hib)).2
    (List.mem_flatten.mpr ⟨a, ha, hia⟩)

def c7df : List ERow :=
  [⟨"abcd", "\"author_id\": \"1\""⟩,
    ⟨"abef", "\"author_id\": \"1\""⟩,
    ⟨"abcdef", "\"author_id\": \"1\""⟩]

lemma c7sim1 : title_similarityE (cleanOf c7df 0) (cleanOf c7df 1) = 50 := by
  have hm : mTot "abcd" "abef" = 2 := by decide
  rw [show cleanOf c7df 0 = "abcd" from by decide,
    show cleanOf c7df 1 = "abef" from by decide,
    title_similarityE, if_neg (by decide), ratioSM, if_neg (by decide), hm,
    show ("abcd".toList.length + "abef".toList.length) = 8 from by decide]
  norm_num

lemma c7sim2 : title_similarityE (cleanOf c7df 0) (cleanOf c7df 2) = 80 := by
  have hm : mTot "abcd" "abcdef" = 4 := by decide
  rw [show cleanOf c7df 0 = "abcd" from by decide,
    show cleanOf c7df 2 = "abcdef" from by decide,
    title_similarityE, if_neg (by decide), ratioSM, if_neg (by decide), hm,
    show ("abcd".toList.length + "abcdef".toList.length) = 10 from by decide]
  norm_num

lemma c7sim3 : title_similarityE (cleanOf c7df 1) (cleanOf c7df 2) = 80 := by
  have hm : mTot "abef" "abcdef" = 4 := by decide
  rw [show cleanOf c7df 1 = "abef" from by decide,
    show cleanOf c7df 2 = "abcdef" from by decide,
    title_similarityE, if_neg (by decide), ratioSM, if_neg (by decide), hm,
    show ("abef".toList.length + "abcdef".toList.length) = 10 from by decide]
  norm_num

lemma c7p01 : (authorsMatch (authorsOf c7df 0) (authorsOf c7df 1) &&
    decide ((75:ℚ) ≤ title_similarityE (cleanOf c7df 0) (cleanOf c7df 1)))
    = false := by
  rw [show authorsMatch (authorsOf c7df 0) (authorsOf c7df 1) = true from
    by decide, Bool.true_and, c7sim1]
  exact decide_eq_false (by norm_num)

lemma c7p02 : (authorsMatch (authorsOf c7df 0) (authorsOf c7df 2) &&
    decide ((75:ℚ) ≤ title_similarityE (cleanOf c7df 0) (cleanOf c7df 2)))
    = true := by
  rw [show authorsMatch (authorsOf c7df 0) (authorsOf c7df 2) = true from
    by decide, Bool.true_and, c7sim2]
  exact decide_eq_true (by norm_num)

lemma c7p12 : (authorsMatch (authorsOf c7df 1) (authorsOf c7df 2) &&
    decide ((75:ℚ) ≤ title_similarityE (cleanOf c7df 1) (cleanOf c7df 2)))
    = true := by
  rw [show authorsMatch (authorsOf c7df 1) (authorsOf c7df 2) = true from
    by decide, Bool.true_and, c7sim3]
  exact decide_eq_true (by norm_num)

lemma c7_edup_eval : edupGroups c7df 75 = [[0, 2], [1, 2]] := by
  rw [edupGroups, show eprefixes c7df = ["ab"] from by decide,
    List.foldl_cons, List.foldl_nil,
    show eprefixRows c7df "ab" = [0, 1, 2] from by decide,
    if_neg (by decide), List.nil_append]
  rw [egroups1, if_neg (by simp)]
  simp only [List.filter_cons, List.filter_nil, c7p01, c7p02,
    Bool.false_eq_true, if_false, if_true]
  rw [if_pos (by decide)]
  rw [egroups1, if_neg (by simp)]
  simp only [List.filter_cons, List.filter_nil, c7p12, if_true]
  rw [if_pos (by decide)]
  rw [egroups1, if_pos (by decide)]
  rw [egroups1]
  simp

/-- C7 counterexample: in the enhanced engine, whose inner grouping
loop has no already-grouped check, two clusters can share a row: with
rows abcd / abef / abcdef (one shared author) and threshold 75, row 2
lands in both [0, 2] and [1, 2]. -/
theorem enhanced_clusters_overlap :
    ∃ g₁ ∈ edupGroups c7df 75, ∃ g₂ ∈ edupGroups c7df 75,
      g₁ ≠ g₂ ∧ ∃ i, i ∈ g₁ ∧ i ∈ g₂ := by
  refine ⟨[0, 2], ?_, [1, 2], ?_, by decide, 2, by decide, by decide⟩
  · rw [c7_edup_eval]
    simp
  · rw [c7_edup_eval]
    simp

lemma argmaxAux_mem (df : List BRow) : ∀ (rest : List Nat) (best : Nat),
    argmaxAux df best rest = best ∨ argmaxAux df best rest ∈ rest := by
  intro rest
  induction rest with
  | nil => intro best; exact Or.inl rfl
  | cons j r ih =>
    intro best
    rw [argmaxAux]
    by_cases h : (df.getD best ⟨"", 0⟩).ratings_count <
        (df.getD j ⟨"", 0⟩).ratings_count
    · rw [if_pos h]
      rcases ih j with h' | h'
      · rw [h']
        exact Or.inr (List.mem_cons_self _ _)
      · exact Or.inr (List.mem_cons_of_mem _ h')
    · rw [if_neg h]
      rcases ih best with h' | h'
      · exact Or.inl h'
      · exact Or.inr (List.mem_cons_of_mem _ h')

lemma argmaxRatings_mem (df : List BRow) (g : List Nat) (h : g ≠ []) :
    argmaxRatings df g ∈ g := by
  match g, h with
  | i :: rest, _ =>
    rw [argmaxRatings]
    rcases argmaxAux_mem df rest i with h' | h'
    · rw [h']
      exact List.mem_cons_self _ _
    · exact List.mem_cons_of_mem _ h'

lemma pgroups1_ne_nil (df : List BRow) (θ : ℚ) : ∀ (rows : List Nat)
    (acc : List (List Nat)), (∀ g ∈ acc, g ≠ []) →
    ∀ g ∈ pgroups1 df θ rows acc, g ≠ [] := by
  intro rows
  induction rows with
  | nil =>
    intro acc hacc g hg
    rw [pgroups1] at hg
    exact hacc g hg
  | cons i rest ih =>
    intro acc hacc g hg
    rw [pgroups1] at hg
    by_cases h1 : (acc.any (fun g => g.contains i)) = true
    · rw [if_pos h1] at hg
      exact ih _ hacc g hg
    · rw [if_neg h1] at hg
      simp only [] at hg
      by_cases h2 : 1 < (i :: rest.filter (fun j =>
          !(acc.any (fun g => g.contains j)) &&
          decide (θ ≤ title_similarity (normOf df i) (normOf df j)))).length
      · rw [if_pos h2] at hg
        refine ih _ ?_ g hg
        intro g' hg'
        rcases List.mem_append.mp hg' with h' | h'
        · exact hacc g' h'
        · rw [List.mem_singleton] at h'
          subst h'
          simp
      · rw [if_neg h2] at hg
        exact ih _ hacc g hg

lemma allGroups_ne_nil (df : List BRow) (θ : ℚ) :
    ∀ g ∈ allGroups df θ, g ≠ [] := by
  intro g hg
  rcases List.mem_append.mp hg with hge | hgs
  · rcases List.mem_map.mp hge with ⟨t, ht, rfl⟩
    have hcnt := (List.mem_filter.mp ht).2
    rw [decide_eq_true_eq, countTitle] at hcnt
    intro hnil
    rw [hnil] at hcnt
    simp at hcnt
  · have main : ∀ (ls : List Char) (acc : List (List Nat)),
        (∀ g ∈ acc, g ≠ []) →
        ∀ g ∈ ls.foldl (fun acc l =>
          if (letterRows df l).length ≤ 1 then acc
          else if (letterRowsF df l).length ≤ 1 then acc
          else acc ++ pgroups1 df θ (letterRowsF df l) []) acc, g ≠ [] := by
      intro ls
      induction ls with
      | nil => intro acc hacc g hg; exact hacc g hg
      | cons l tail ih =>
        intro acc hacc g hg
        rw [List.foldl_cons] at hg
        refine ih _ ?_ g hg
        intro g' hg'
        by_cases hA : (letterRows df l).length ≤ 1
        · rw [if_pos hA] at hg'
          exact hacc g' hg'
        · rw [if_neg hA] at hg'
          by_cases hB : (letterRowsF df l).length ≤ 1
          · rw [if_pos hB] at hg'
            exact hacc g' hg'
          · rw [if_neg hB] at hg'
            rcases List.mem_append.mp hg' with h' | h'
            · exact hacc g' h'
            · exact pgroups1_ne_nil df θ _ _ (by simp) g' h'
    exact main (bletters df) [] (by simp) g hgs

/-- C10: rows whose titles normalize to the empty string (two or more
of them) form one exact-duplicate cluster, and exactly one of them is
kept. -/
theorem empty_norm_single_cluster (df : List BRow) (θ : ℚ)
    (h2 : 2 ≤ (titleRows df "").length) :
    titleRows df "" ∈ exactGroups df ∧
    (keepSet df θ ∩ (titleRows df "").toFinset).card = 1 := by
  have hEne : titleRows df "" ≠ [] := by
    intro h
    rw [h] at h2
    simp at h2
  have hmem_exact : titleRows df "" ∈ exactGroups df := by
    rw [exactGroups]
    refine List.mem_map.mpr ⟨"", ?_, rfl⟩
    rw [exactTitles]
    refine List.mem_filter.mpr ⟨?_, ?_⟩
    · rcases List.exists_mem_of_ne_nil _ hEne with ⟨i, hi⟩
      have hin := (List.mem_filter.mp hi).1
      have hnrm := (List.mem_filter.mp hi).2
      rw [decide_eq_true_eq] at hnrm
      exact firstUniq_mem _ _ (List.mem_map.mpr ⟨i, hin, hnrm⟩)
    · rw [decide_eq_true_eq, countTitle]
      omega
  have hGin : titleRows df "" ∈ allGroups df θ :=
    List.mem_append.mpr (Or.inl hmem_exact)
  refine ⟨hmem_exact, ?_⟩
  have key : keepSet df θ ∩ (titleRows df "").toFinset =
      {argmaxRatings df (titleRows df "")} := by
    apply Finset.ext
    intro x
    simp only [Finset.mem_inter, Finset.mem_singleton]
    constructor
    · rintro ⟨hk, hx⟩
      have hxE : x ∈ titleRows df "" := List.mem_toFinset.mp hx
      rw [keepSet] at hk
      rcases Finset.mem_union.mp hk with hk | hk
      · exfalso
        have hnd := (List.mem_filter.mp (List.mem_toFinset.mp hk)).2
        rw [decide_eq_true_eq] at hnd
        apply hnd
        have : x ∈ (allGroups df θ).flatten :=
          List.mem_flatten.mpr ⟨titleRows df "", hGin, hxE⟩
        simpa using this
      · rcases List.mem_map.mp (List.mem_toFinset.mp hk) with ⟨g, hg, hgx⟩
        have hgne := allGroups_ne_nil df θ g hg
        have hxg : x ∈ g := hgx ▸ argmaxRatings_mem df g hgne
        rcases List.mem_append.mp hg with hge | hgs
        · rcases List.mem_map.mp hge with ⟨t, ht, rfl⟩
          have h1 : normOf df x = t := mem_titleRows df t x hxg
          have h0 : normOf df x = "" := mem_titleRows df "" x hxE
          rw [h0] at h1
          rw [← h1] at hgx
          exact hgx.symm
        · exfalso
          rcases similarGroups_mem df θ g hgs with ⟨l, hl⟩
          have hfl := (mem_letterRowsF df l x (hl x hxg)).1
          have h0 : normOf df x = "" := mem_titleRows df "" x hxE
          rw [flOf, h0] at hfl
          simp at hfl
    · rintro rfl
      refine ⟨?_, List.mem_toFinset.mpr (argmaxRatings_mem df _ hEne)⟩
      rw [keepSet]
      refine Finset.mem_union.mpr (Or.inr ?_)
      exact List.mem_toFinset.mpr
        (List.mem_map.mpr ⟨titleRows df "", hGin, rfl⟩)
  rw [key, Finset.card_singleton]

def c10df : List BRow := [⟨"The", 5⟩, ⟨"A", 3⟩, ⟨"Dune", 7⟩]

/-- Witness for C10: rows titled "The" and "A" normalize to the empty
string, form one exact cluster, and exactly one is kept. -/
theorem empty_norm_single_cluster_witness :
    2 ≤ (titleRows c10df "").length ∧
    (titleRows c10df "" ∈ exactGroups c10df ∧
      (keepSet c10df (4/5) ∩ (titleRows c10df "").toFinset).card = 1) :=
  ⟨by decide, empty_norm_single_cluster c10df (4/5) (by decide)⟩

end RecSys


